import Mathlib

/-! Verification of the duplicate-finder program.

This file gives a shallow embedding of the core of `duplicate-finder.py`:
the `Clusterer` equivalence-class builder, the content-hash dedup stage,
the perceptual-hash pre-clustering stage, the similarity cache and its
lookup discipline, the report/cache persistence steps and the triage
classification, together with proofs (and disproofs) of the specified
properties.

Conventions of the embedding: Python `str` is `String` (or its character
list `List Char` where slicing and ordering matter), Python `int` is `Nat`,
Python `float` scores are `ℚ` (only comparisons and equality with `0.0`
are ever performed on them), Python sets are `Finset`, Python lists are
`List`, and a function that can raise is `Except String`.  External
collaborators (filesystem reads, `isearch.phash`, ImageMagick) are
parameters of the definitions that call them. -/

set_option linter.unusedSectionVars false
set_option linter.unusedVariables false

namespace DupFinder

/-! ### Clusterer (src/duplicate-finder.py, lines 57-95)

Python represents the state as a dict `d` mapping each key to a mutable
`set` object, where several keys alias the same object.  The embedding
makes the object heap explicit: `heap i` is the set object at address `i`,
`next` is the first address never yet allocated, and `d` associates each
key with the address of its set object.  Mutating a shared Python set is
updating `heap` at a single address, which every key aliasing that address
observes, exactly as in the source. -/

structure Clusterer (K : Type) [DecidableEq K] where
  heap : Nat → Finset K
  next : Nat
  d : List (K × Nat)

variable {K : Type} [DecidableEq K]

namespace Clusterer

/-- state of `Clusterer.__init__` (line 59-60): empty dict. -/
def init : Clusterer K := ⟨fun _ => ∅, 0, []⟩

/-- keys of the dict `self.d`, i.e. every key ever registered. -/
def keys (st : Clusterer K) : List K := st.d.map Prod.fst

/-- dict lookup `self.d[a]` (as an address), `none` when `a` is not a key. -/
def lookup (st : Clusterer K) (a : K) : Option Nat :=
  (st.d.find? (fun p => decide (p.1 = a))).map Prod.snd

/-- heap update: the effect of mutating the set object at address `i`. -/
def upd (h : Nat → Finset K) (i : Nat) (s : Finset K) : Nat → Finset K :=
  fun j => if j = i then s else h j

/-- `add_pair` (lines 62-88).  Four branches exactly as in the source.
In the first branch, `sa.update(sb)` mutates the object at `a`'s address
and `for i in sb: self.d[i] = sa` re-associates every member of `sb` with
that object; every member of a stored set is a dict key in every reachable
state (field `coherent` of `Wf` below), so the re-association is an update
of existing entries.  In the last branch `s = {a, b}` allocates one fresh
object and `self.d[a] = s; self.d[b] = s` creates one dict entry when
`a == b` and two otherwise. -/
def add_pair (st : Clusterer K) (a b : K) : Clusterer K :=
  match st.lookup a, st.lookup b with
  | some ia, some ib =>
      let sa := st.heap ia
      let sb := st.heap ib
      ⟨upd st.heap ia (sa ∪ sb), st.next,
        st.d.map (fun p => if p.1 ∈ sb then (p.1, ia) else p)⟩
  | some ia, none =>
      ⟨upd st.heap ia (insert b (st.heap ia)), st.next, st.d ++ [(b, ia)]⟩
  | none, some ib =>
      ⟨upd st.heap ib (insert a (st.heap ib)), st.next, st.d ++ [(a, ib)]⟩
  | none, none =>
      ⟨upd st.heap st.next (insert a {b}), st.next + 1,
        if a = b then st.d ++ [(a, st.next)]
        else st.d ++ [(a, st.next), (b, st.next)]⟩

/-- `add_singular` (lines 90-91): `self.d.setdefault(a, {a})`. -/
def add_singular (st : Clusterer K) (a : K) : Clusterer K :=
  if a ∈ st.keys then st
  else ⟨upd st.heap st.next {a}, st.next + 1, st.d ++ [(a, st.next)]⟩

/-- `compile` (lines 93-95): `frozenset(frozenset(s) for s in self.d.values())`. -/
def compile (st : Clusterer K) : Finset (Finset K) :=
  (st.d.map (fun p => st.heap p.2)).toFinset

end Clusterer

/-- an abstract call on a `Clusterer`: the two mutating methods. -/
inductive ClOp (K : Type) where
  | sing (a : K)
  | pair (a b : K)
deriving DecidableEq

/-- dispatch one call. -/
def applyOp (st : Clusterer K) : ClOp K → Clusterer K
  | .sing a => st.add_singular a
  | .pair a b => st.add_pair a b

/-- the state after a sequence of calls on a fresh `Clusterer`. -/
def runOps (ops : List (ClOp K)) : Clusterer K := ops.foldl applyOp .init

/-- every key passed to any call of the sequence. -/
def mentioned : List (ClOp K) → List K
  | [] => []
  | .sing a :: ops => a :: mentioned ops
  | .pair a b :: ops => a :: b :: mentioned ops

/-- two keys are associated with the same set object. -/
def sameId (st : Clusterer K) (x y : K) : Prop :=
  ∃ i, (x, i) ∈ st.d ∧ (y, i) ∈ st.d

/-! ### Files (src/duplicate-finder.py, lines 30-55) -/

/-- the record built by `File.__init__` (lines 36-43): `path`, `hash`
(md5 hex digest, 32 characters), `name`, `extension`, `isimage`, and
`phash`; Python assigns `phash` only when `isimage` holds, so the
embedding stores `0` for non-images and no property depends on that
value. -/
structure FileRec where
  path : String
  hash : List Char
  name : String
  extension : String
  isimage : Bool
  phash : Nat
deriving DecidableEq

/-- the external collaborators used by `File.__init__`:
`os.path.normpath`, `compute_hash` (lines 30-32, `open` + md5, raising on
an unreadable file, hence `Except`), `os.path.basename` followed by
`os.path.splitext`, and `isearch.phash`. -/
structure FsOracle where
  normpath : String → String
  compute_hash : String → Except String (List Char)
  splitName : String → String × String
  phash : String → Nat

/-- `File.__init__` (lines 36-43): any exception from `compute_hash`
propagates out of the constructor. -/
def File_init (fs : FsOracle) (filepath : String) : Except String FileRec := do
  let path := fs.normpath filepath
  let hash ← fs.compute_hash path
  let (name, extension) := fs.splitName filepath
  let isimage := extension ∈ [".jpg", ".png", ".webp"]
  let phash := if isimage then fs.phash path else 0
  return ⟨path, hash, name, extension, isimage, phash⟩

/-- the info-extraction stage of `duplicate_finder` (lines 243-247):
`File` is mapped over every path (through `pool.imap_unordered`) and the
results are collected by `list(...)`; an exception raised in any
`File.__init__` is re-raised at the consuming iteration, aborting the
whole collection — there is no handler. -/
def extract_files (fs : FsOracle) : List String → Except String (List FileRec)
  | [] => Except.ok []
  | p :: ps => do
      let f ← File_init fs p
      let rest ← extract_files fs ps
      return f :: rest

/-! ### Hash matching and exact dedup (lines 106-116, 311-314) -/

/-- first-occurrence-ordered list of distinct values: the key order of a
Python dict populated by repeated `setdefault`. -/
def pyDedup {α : Type} [DecidableEq α] (l : List α) : List α :=
  l.foldl (fun acc x => if x ∈ acc then acc else acc ++ [x]) []

/-- `match_hashes` (lines 106-110): group files by content hash.  The
buckets are listed in dict insertion order; each bucket holds the files
carrying that hash (a Python set; here in input order, which is
immaterial because every later use sorts or treats it as a set). -/
def match_hashes (files : List FileRec) : List (List FileRec) :=
  (pyDedup (files.map (·.hash))).map
    (fun h => files.filter (fun f => f.hash = h))

/-- code-point comparison of Python strings: `charListLe a b` models
`a <= b`, lexicographic on code points. -/
def charListLe : List Char → List Char → Bool
  | [], _ => true
  | _ :: _, [] => false
  | a :: as, b :: bs =>
      if a < b then true else if b < a then false else charListLe as bs

/-- path comparison of two `File`s: `File.__lt__` (lines 45-46) compares
`self.path`. -/
def pathLe (f g : FileRec) : Bool := charListLe f.path.toList g.path.toList

/-- insertion step of the sort by path. -/
def insertByPath (f : FileRec) : List FileRec → List FileRec
  | [] => [f]
  | g :: gs => if pathLe f g then f :: g :: gs else g :: insertByPath f gs

/-- `sorted` over files, whose order (line 45-46) is path order. -/
def sortByPath : List FileRec → List FileRec
  | [] => []
  | f :: fs => insertByPath f (sortByPath fs)

/-- `dedup_hashes` (lines 112-116): `{sorted(duplicates)[0] for duplicates
in hashes.values()}` — the set holding the path-least member (the keeper)
of every bucket. -/
def dedup_hashes (files : List FileRec) : Finset FileRec :=
  ((match_hashes files).filterMap (fun b => (sortByPath b).head?)).toFinset

/-- the identical-group compilation (lines 311-314): every bucket with at
least two members, sorted by path; the `str` quoting of each member when
the tuple is built is presentation and not modelled. -/
def identicals (files : List FileRec) : List (List FileRec) :=
  (match_hashes files).filterMap
    (fun b => if 1 < b.length then some (sortByPath b) else none)

/-- line 260: the keeper files flagged as images, which are exactly what
`duplicate_finder` feeds to perceptual analysis. -/
def imagesOf (files : List FileRec) : Finset FileRec :=
  (dedup_hashes files).filter (fun f => f.isimage)

/-! ### Perceptual pre-clustering (lines 27, 118-143) -/

/-- default of the global `PHASH_DIFF_BITS` (line 27). -/
def PHASH_DIFF_BITS : Nat := 2

/-- popcount with structural fuel recursion (`fuel` bounds the recursion
depth; `n` itself always suffices because halving a positive number
strictly decreases it). -/
def popcountAux : Nat → Nat → Nat
  | 0, _ => 0
  | _ + 1, 0 => 0
  | fuel + 1, n + 1 => (n + 1) % 2 + popcountAux fuel ((n + 1) / 2)

/-- `int.bit_count`: number of set bits of a natural number. -/
def popcount (n : Nat) : Nat := popcountAux n n

/-- the ordered pairs produced by `itertools.combinations(l, 2)`. -/
def combos {α : Type} : List α → List (α × α)
  | [] => []
  | x :: xs => (xs.map (fun y => (x, y))) ++ combos xs

/-- the `Clusterer` calls issued by `match_phashes` (lines 118-127): one
`add_singular` per file's perceptual-hash value, in iteration order, then
one `add_pair` per pair of distinct values whose xor has at most `t` set
bits, in `itertools.combinations` order over the dict's key order. -/
def phashOps (t : Nat) (files : List FileRec) : List (ClOp Nat) :=
  files.map (fun f => ClOp.sing f.phash) ++
    (combos (pyDedup (files.map (·.phash)))).filterMap
      (fun pq => if popcount (pq.1 ^^^ pq.2) ≤ t then some (.pair pq.1 pq.2)
                 else none)

/-- the `similar_phashes` Clusterer after both loops of `match_phashes`. -/
def similar_phashes (t : Nat) (files : List FileRec) : Clusterer Nat :=
  runOps (phashOps t files)

/-- expansion of one compiled cluster of values back to files
(lines 129-134): the union over the cluster of `raw_phashes[phash]`,
i.e. the files whose value lies in the cluster. -/
def expandGroup (files : List FileRec) (g : Finset Nat) : Finset FileRec :=
  (files.filter (fun f => f.phash ∈ g)).toFinset

/-- `match_phashes` (lines 118-136), with the global threshold explicit. -/
def match_phashes (t : Nat) (files : List FileRec) : Finset (Finset FileRec) :=
  (similar_phashes t files).compile.image (expandGroup files)

/-- `group_similars` (lines 138-143): keep the expanded groups with more
than one file. -/
def group_similars (t : Nat) (files : List FileRec) : Finset (Finset FileRec) :=
  (match_phashes t files).filter (fun s => 1 < s.card)

/-! ### Similarity cache and pair comparison (lines 163-226) -/

/-- `ncc_cache_key` (lines 213-215): `sorted((file1.hash, file2.hash))`
concatenated — the lexicographically smaller digest first. -/
def ncc_cache_key (file1 file2 : FileRec) : List Char :=
  if charListLe file1.hash file2.hash then file1.hash ++ file2.hash
  else file2.hash ++ file1.hash

/-- `ncc_cache_dekey` (lines 217-218): `key[:32], key[32:]`. -/
def ncc_cache_dekey (key : List Char) : List Char × List Char :=
  (key.take 32, key.drop 32)

/-- the in-memory `CACHE` dict (line 163) viewed through `.get`: a map
from key strings to float scores. -/
def Cache : Type := List Char → Option ℚ

/-- `get_from_cache` (lines 174-176): `CACHE.get(key)`. -/
def get_from_cache (cache : Cache) (key : List Char) : Option ℚ := cache key

/-- truthiness of a Python float: `0.0` is falsy, every other value is
truthy. -/
def floatTruthy (q : ℚ) : Bool := q ≠ 0

/-- `ncc_compare` (lines 220-226).  `if score := get_from_cache(...)` is a
walrus assignment whose result is then tested for truthiness, so the
stored-score return is taken only when the key is present and the stored
score is non-zero; on every other outcome the thumbnail paths are formed
and `ncc_score` runs the external `compare` command (lines 201-211),
modelled by the `nccScore` collaborator.  The second component of the
result records whether that external path ran. -/
def ncc_compare (cache : Cache) (nccScore : FileRec → FileRec → ℚ)
    (files : FileRec × FileRec) : (FileRec × FileRec × ℚ) × Bool :=
  let (file1, file2) := files
  match get_from_cache cache (ncc_cache_key file1 file2) with
  | some score =>
      if floatTruthy score then ((file1, file2, score), false)
      else ((file1, file2, nccScore file1 file2), true)
  | none => ((file1, file2, nccScore file1 file2), true)

/-! ### Compiling confirmed-similar pairs (lines 315-323) -/

/-- the result-compilation loop (lines 315-319) restricted to its effect
on the `similars` Clusterer: every result triple `(file1, file2, score)`
with `0.9 <= score` is fed to `add_pair file1 file2`. -/
def compileSimilars (results : List (FileRec × FileRec × ℚ)) :
    Clusterer FileRec :=
  results.foldl
    (fun cl r => if (0.9 : ℚ) ≤ r.2.2 then cl.add_pair r.1 r.2.1 else cl)
    .init

/-- the `add_pair` calls of that loop, as an op sequence. -/
def simOps (results : List (FileRec × FileRec × ℚ)) : List (ClOp FileRec) :=
  results.filterMap
    (fun r => if (0.9 : ℚ) ≤ r.2.2 then some (.pair r.1 r.2.1) else none)

/-- lines 320-323: the compiled similarity sets with more than one member
(sorting and `str` of members is presentation and not modelled). -/
def similaritySets (results : List (FileRec × FileRec × ℚ)) :
    Finset (Finset FileRec) :=
  (compileSimilars results).compile.filter (fun s => 1 < s.card)

/-! ### Persistence (lines 24-25, 182-196) -/

/-- on-disk state: file contents by name (`none` = absent). -/
def FsState : Type := String → Option String

/-- atomic filesystem effects relevant to persistence: `open(path, "w")`
truncates the target at once; the following `json.dump` writes the
serialised data; a rename is the step an atomic write-temp-then-rename
discipline would end with (the source never performs one). -/
inductive FsStep where
  | truncate (path : String)
  | write (path : String) (data : String)
  | rename (src dst : String)

def applyFsStep (st : FsState) : FsStep → FsState
  | .truncate p => fun q => if q = p then some "" else st q
  | .write p data => fun q => if q = p then some data else st q
  | .rename src dst => fun q =>
      if q = dst then st src else if q = src then none else st q

def runFsSteps (st : FsState) (steps : List FsStep) : FsState :=
  steps.foldl applyFsStep st

/-- `CACHE_FILE` (line 24), after `expanduser`. -/
def CACHE_FILE : String := "~/.cache/duplicate-finder_cache.json"

/-- `REPORT_FILE` (line 25), after `expanduser`. -/
def REPORT_FILE : String := "~/.cache/duplicate-finder_report.json"

/-- `store_cache` (lines 182-191) as filesystem steps:
`with open(CACHE_FILE, "w") as f: json.dump(CACHE, f)` — truncate the
target in place, then write into it; no temporary file and no rename. -/
def store_cache_steps (data : String) : List FsStep :=
  [.truncate CACHE_FILE, .write CACHE_FILE data]

/-- `store_report` (lines 193-196): the same discipline on
`REPORT_FILE`. -/
def store_report_steps (data : String) : List FsStep :=
  [.truncate REPORT_FILE, .write REPORT_FILE data]

/-! ### Triage of two-element similar groups (lines 416-468) -/

/-- one iteration of the classification loop over `similars`
(lines 419-440).  `dims` supplies PIL's `Image.size`, a `(width, height)`
pair; `fsize` supplies `os.path.getsize`.  A group that is not a pair goes
to `others`; a pair of equal dimensions goes to `samesize` ordered
(smaller byte size, larger byte size) — on a byte-size tie `(f2, f1)`,
like the source's `else`; a pair strictly smaller in both axes goes to
`diffsize` ordered (smaller image, larger image); anything else goes to
`others`. -/
def classifyStep (dims : String → Nat × Nat) (fsize : String → Nat)
    (acc : Finset (String × String) × Finset (String × String) × List (List String))
    (sset : List String) :
    Finset (String × String) × Finset (String × String) × List (List String) :=
  match sset with
  | [f1, f2] =>
      let (samesize, diffsize, others) := acc
      let i1 := dims f1
      let i2 := dims f2
      if i1 = i2 then
        if fsize f1 < fsize f2 then (insert (f1, f2) samesize, diffsize, others)
        else (insert (f2, f1) samesize, diffsize, others)
      else if i1.2 < i2.2 ∧ i1.1 < i2.1 then
        (samesize, insert (f1, f2) diffsize, others)
      else if i2.2 < i1.2 ∧ i2.1 < i1.1 then
        (samesize, insert (f2, f1) diffsize, others)
      else (samesize, diffsize, others ++ [sset])
  | _ => (acc.1, acc.2.1, acc.2.2 ++ [sset])

/-- the whole classification loop (lines 416-440). -/
def classify (dims : String → Nat × Nat) (fsize : String → Nat)
    (similars : List (List String)) :
    Finset (String × String) × Finset (String × String) × List (List String) :=
  similars.foldl (classifyStep dims fsize) (∅, ∅, [])

/-- the same-size review loop (lines 457-462): on confirmation
`removefile(f2)` removes the second component, the heavier file. -/
def samesize_deleted (p : String × String) : String := p.2

/-- the different-size review loop (lines 442-447): on confirmation
`removefile(f1)` removes the first component, the smaller image. -/
def diffsize_deleted (p : String × String) : String := p.1


/-! ### Well-formedness invariant of reachable Clusterer states -/

/-- invariant of every reachable `Clusterer` state: dict keys are distinct,
every entry points below the allocation bound, every key is a member of its
own set object, and every member of a referenced set object is a dict key
pointing back to that same object (this last field is the source comment
`sa and sb have no intersection`, line 66, in invariant form). -/
structure Wf (st : Clusterer K) : Prop where
  nodup : st.keys.Nodup
  range : ∀ p ∈ st.d, p.2 < st.next
  self_mem : ∀ p ∈ st.d, p.1 ∈ st.heap p.2
  coherent : ∀ p ∈ st.d, ∀ x ∈ st.heap p.2, (x, p.2) ∈ st.d

theorem mem_keys {st : Clusterer K} {a : K} :
    a ∈ st.keys ↔ ∃ i, (a, i) ∈ st.d := by
  unfold Clusterer.keys
  constructor
  · intro h
    rcases List.mem_map.mp h with ⟨p, hp, hfst⟩
    exact ⟨p.2, by simpa [← hfst] using hp⟩
  · rintro ⟨i, hi⟩
    exact List.mem_map.mpr ⟨(a, i), hi, rfl⟩

/-- in an association list with distinct keys, values are determined. -/
theorem assoc_fun {l : List (K × Nat)} (h : (l.map Prod.fst).Nodup)
    {k : K} {i j : Nat} (hi : (k, i) ∈ l) (hj : (k, j) ∈ l) : i = j := by
  induction l with
  | nil => cases hi
  | cons p t ih =>
    rw [List.map_cons, List.nodup_cons] at h
    rcases List.mem_cons.mp hi with hi' | hi' <;>
      rcases List.mem_cons.mp hj with hj' | hj'
    · rw [← hi'] at hj'
      exact ((Prod.mk.injEq _ _ _ _).mp hj').2.symm
    · exact absurd (List.mem_map.mpr ⟨(k, j), hj', by simp [← hi']⟩) h.1
    · exact absurd (List.mem_map.mpr ⟨(k, i), hi', by simp [← hj']⟩) h.1
    · exact ih h.2 hi' hj'

theorem dvalue_eq {st : Clusterer K} (hw : Wf st) {k : K} {i j : Nat}
    (hi : (k, i) ∈ st.d) (hj : (k, j) ∈ st.d) : i = j :=
  assoc_fun hw.nodup hi hj

theorem lookup_eq_none {st : Clusterer K} {a : K} :
    st.lookup a = none ↔ a ∉ st.keys := by
  unfold Clusterer.lookup
  rw [Option.map_eq_none', List.find?_eq_none]
  constructor
  · intro h ha
    rcases mem_keys.mp ha with ⟨i, hi⟩
    exact (by simpa using h _ hi)
  · intro h p hp
    simp only [decide_eq_true_eq]
    intro hfst
    exact h (mem_keys.mpr ⟨p.2, hfst ▸ (by simpa using hp)⟩)

theorem mem_of_lookup_eq_some {st : Clusterer K} {a : K} {i : Nat}
    (h : st.lookup a = some i) : (a, i) ∈ st.d := by
  unfold Clusterer.lookup at h
  rcases Option.map_eq_some'.mp h with ⟨p, hp, hsnd⟩
  have hfst : p.1 = a := by simpa using List.find?_some hp
  have hmem := List.mem_of_find?_eq_some hp
  have : p = (a, i) := by
    cases p
    simp_all
  rw [← this]
  exact hmem

theorem lookup_eq_some_of_mem {st : Clusterer K} (hw : Wf st) {a : K} {i : Nat}
    (h : (a, i) ∈ st.d) : st.lookup a = some i := by
  cases hl : st.lookup a with
  | none =>
    exact absurd (mem_keys.mpr ⟨i, h⟩) (lookup_eq_none.mp hl)
  | some j =>
    rw [dvalue_eq hw h (mem_of_lookup_eq_some hl)]

theorem upd_eq (h : Nat → Finset K) (i : Nat) (s : Finset K) :
    Clusterer.upd h i s i = s := by
  simp [Clusterer.upd]

theorem upd_ne (h : Nat → Finset K) {i j : Nat} (s : Finset K) (hij : j ≠ i) :
    Clusterer.upd h i s j = h j := by
  simp [Clusterer.upd, hij]

/-- re-associating the members of `sb` does not change the dict keys. -/
theorem keys_map_repoint (st : Clusterer K) (ib ia : Nat) :
    ((st.d.map (fun p => if p.1 ∈ st.heap ib then (p.1, ia) else p)).map Prod.fst)
      = st.keys := by
  rw [List.map_map]
  apply List.map_congr_left
  intro p _
  by_cases h : p.1 ∈ st.heap ib <;> simp [h]

/-- in a well-formed state, membership in the set object of `b` is the same
as being associated with `b`'s address (used to analyse the first branch of
`add_pair`). -/
theorem mem_heap_iff_assoc {st : Clusterer K} (hw : Wf st) {b : K} {ib : Nat}
    (hb : (b, ib) ∈ st.d) {p : K × Nat} (hp : p ∈ st.d) :
    p.1 ∈ st.heap ib ↔ p.2 = ib := by
  constructor
  · intro hmem
    have h1 : (p.1, ib) ∈ st.d := hw.coherent _ hb _ hmem
    have h2 : (p.1, p.2) ∈ st.d := by simpa using hp
    exact dvalue_eq hw h2 h1
  · intro h2
    have := hw.self_mem p hp
    rw [h2] at this
    exact this

theorem wf_init : Wf (Clusterer.init : Clusterer K) := by
  refine ⟨?_, ?_, ?_, ?_⟩ <;> simp [Clusterer.init, Clusterer.keys]

/-- adding a fresh key `c` to an existing set object (branches two and
three of `add_pair`) preserves well-formedness. -/
theorem wf_extend {st : Clusterer K} (hw : Wf st) {w c : K} {i : Nat}
    (hwi : (w, i) ∈ st.d) (hc : c ∉ st.keys) :
    Wf ⟨Clusterer.upd st.heap i (insert c (st.heap i)), st.next, st.d ++ [(c, i)]⟩ := by
  refine ⟨?_, ?_, ?_, ?_⟩
  · show ((st.d ++ [(c, i)]).map Prod.fst).Nodup
    rw [List.map_append]
    rw [List.nodup_append]
    refine ⟨hw.nodup, by simp, ?_⟩
    intro x hx hx'
    simp only [List.map_cons, List.map_nil, List.mem_singleton] at hx'
    exact hc (hx' ▸ hx)
  · intro p hp
    rcases List.mem_append.mp hp with h | h
    · exact hw.range p h
    · simp only [List.mem_singleton] at h
      subst h
      exact hw.range (w, i) hwi
  · intro p hp
    dsimp only at hp ⊢
    rcases List.mem_append.mp hp with h | h
    · by_cases h2 : p.2 = i
      · rw [h2, upd_eq]
        exact Finset.mem_insert_of_mem (h2 ▸ hw.self_mem p h)
      · rw [upd_ne _ _ h2]
        exact hw.self_mem p h
    · simp only [List.mem_singleton] at h
      subst h
      simp [upd_eq]
  · intro p hp x hx
    dsimp only at hp hx ⊢
    by_cases h2 : p.2 = i
    · rw [h2, upd_eq] at hx
      rw [h2]
      rcases Finset.mem_insert.mp hx with rfl | hx'
      · exact List.mem_append_right _ (by simp)
      · exact List.mem_append_left _ (hw.coherent (w, i) hwi x hx')
    · rw [upd_ne _ _ h2] at hx
      rcases List.mem_append.mp hp with h | h
      · exact List.mem_append_left _ (hw.coherent p h x hx)
      · simp only [List.mem_singleton] at h
        exact absurd (congrArg Prod.snd h) h2

theorem wf_add_pair {st : Clusterer K} (hw : Wf st) (a b : K) :
    Wf (st.add_pair a b) := by
  unfold Clusterer.add_pair
  cases hla : st.lookup a with
  | some ia =>
    cases hlb : st.lookup b with
    | some ib =>
      have ha : (a, ia) ∈ st.d := mem_of_lookup_eq_some hla
      have hb : (b, ib) ∈ st.d := mem_of_lookup_eq_some hlb
      show Wf ⟨Clusterer.upd st.heap ia (st.heap ia ∪ st.heap ib), st.next,
        st.d.map (fun p => if p.1 ∈ st.heap ib then (p.1, ia) else p)⟩
      refine ⟨?_, ?_, ?_, ?_⟩
      · show ((st.d.map _).map Prod.fst).Nodup
        rw [keys_map_repoint]
        exact hw.nodup
      · intro p hp
        rcases List.mem_map.mp hp with ⟨q, hq, rfl⟩
        by_cases h : q.1 ∈ st.heap ib <;> simp only [h, if_true, if_false]
        · exact hw.range _ ha
        · exact hw.range _ hq
      · intro p hp
        rcases List.mem_map.mp hp with ⟨q, hq, rfl⟩
        by_cases h : q.1 ∈ st.heap ib
        · simp only [h, if_true]
          rw [upd_eq]
          exact Finset.mem_union_right _ h
        · simp only [h, if_false]
          by_cases h2 : q.2 = ia
          · rw [h2, upd_eq]
            exact Finset.mem_union_left _ (h2 ▸ hw.self_mem q hq)
          · rw [upd_ne _ _ h2]
            exact hw.self_mem q hq
      · intro p hp x hx
        rcases List.mem_map.mp hp with ⟨q, hq, rfl⟩
        by_cases h : q.1 ∈ st.heap ib
        · -- the entry was re-associated with `a`'s address
          simp only [h, if_true] at hx ⊢
          rw [upd_eq] at hx
          rcases Finset.mem_union.mp hx with hxa | hxb
          · by_cases hxb' : x ∈ st.heap ib
            · exact List.mem_map.mpr ⟨(x, ib), hw.coherent _ hb _ hxb', by simp [hxb']⟩
            · exact List.mem_map.mpr ⟨(x, ia), hw.coherent _ ha _ hxa, by simp [hxb']⟩
          · exact List.mem_map.mpr ⟨(x, ib), hw.coherent _ hb _ hxb, by simp [hxb]⟩
        · simp only [h, if_false] at hx ⊢
          by_cases h2 : q.2 = ia
          · rw [h2, upd_eq] at hx
            rw [h2]
            rcases Finset.mem_union.mp hx with hxa | hxb
            · by_cases hxb' : x ∈ st.heap ib
              · exact List.mem_map.mpr ⟨(x, ib), hw.coherent _ hb _ hxb', by simp [hxb']⟩
              · exact List.mem_map.mpr ⟨(x, ia), hw.coherent _ ha _ hxa, by simp [hxb']⟩
            · exact List.mem_map.mpr ⟨(x, ib), hw.coherent _ hb _ hxb, by simp [hxb]⟩
          · rw [upd_ne _ _ h2] at hx
            have hq2 : q.2 ≠ ib := fun hc =>
              h ((mem_heap_iff_assoc hw hb hq).mpr hc)
            have hxd : (x, q.2) ∈ st.d := hw.coherent q hq x hx
            have hxb' : x ∉ st.heap ib := fun hc =>
              hq2 ((mem_heap_iff_assoc hw hb hxd).mp hc)
            exact List.mem_map.mpr ⟨(x, q.2), hxd, by simp [hxb']⟩
    | none =>
      have ha : (a, ia) ∈ st.d := mem_of_lookup_eq_some hla
      have hb' : b ∉ st.keys := lookup_eq_none.mp hlb
      exact wf_extend hw ha hb'
  | none =>
    cases hlb : st.lookup b with
    | some ib =>
      have hb : (b, ib) ∈ st.d := mem_of_lookup_eq_some hlb
      have ha' : a ∉ st.keys := lookup_eq_none.mp hla
      exact wf_extend hw hb ha'
    | none =>
      have ha' : a ∉ st.keys := lookup_eq_none.mp hla
      have hb' : b ∉ st.keys := lookup_eq_none.mp hlb
      show Wf ⟨Clusterer.upd st.heap st.next (insert a {b}), st.next + 1,
        if a = b then st.d ++ [(a, st.next)]
        else st.d ++ [(a, st.next), (b, st.next)]⟩
      have hfreshd : ∀ p ∈ st.d, p.2 ≠ st.next := fun p hp =>
        Nat.ne_of_lt (hw.range p hp)
      by_cases hab : a = b
      · subst hab
        simp only [if_true]
        refine ⟨?_, ?_, ?_, ?_⟩
        · show ((st.d ++ [(a, st.next)]).map Prod.fst).Nodup
          rw [List.map_append, List.nodup_append]
          refine ⟨hw.nodup, by simp, ?_⟩
          intro x hx hx'
          simp only [List.map_cons, List.map_nil, List.mem_singleton] at hx'
          exact ha' (hx' ▸ hx)
        · intro p hp
          rcases List.mem_append.mp hp with h | h
          · exact Nat.lt_succ_of_lt (hw.range p h)
          · simp only [List.mem_singleton] at h
            subst h
            exact Nat.lt_succ_self _
        · intro p hp
          dsimp only at hp ⊢
          rcases List.mem_append.mp hp with h | h
          · rw [upd_ne _ _ (hfreshd p h)]
            exact hw.self_mem p h
          · simp only [List.mem_singleton] at h
            subst h
            simp [upd_eq]
        · intro p hp x hx
          dsimp only at hp hx ⊢
          by_cases h2 : p.2 = st.next
          · rw [h2, upd_eq] at hx
            rw [h2]
            rcases Finset.mem_insert.mp hx with rfl | hx'
            · exact List.mem_append_right _ (by simp)
            · rw [Finset.mem_singleton] at hx'
              subst hx'
              exact List.mem_append_right _ (by simp)
          · rw [upd_ne _ _ h2] at hx
            rcases List.mem_append.mp hp with h | h
            · exact List.mem_append_left _ (hw.coherent p h x hx)
            · simp only [List.mem_singleton] at h
              exact absurd (congrArg Prod.snd h) h2
      · simp only [hab, if_false]
        refine ⟨?_, ?_, ?_, ?_⟩
        · show ((st.d ++ [(a, st.next), (b, st.next)]).map Prod.fst).Nodup
          rw [List.map_append, List.nodup_append]
          refine ⟨hw.nodup, by simp [hab], ?_⟩
          intro x hx hx'
          simp only [List.map_cons, List.map_nil, List.mem_cons,
            List.mem_singleton, List.not_mem_nil, or_false] at hx'
          rcases hx' with rfl | rfl
          · exact ha' hx
          · exact hb' hx
        · intro p hp
          rcases List.mem_append.mp hp with h | h
          · exact Nat.lt_succ_of_lt (hw.range p h)
          · rcases List.mem_cons.mp h with rfl | h
            · exact Nat.lt_succ_self _
            · simp only [List.mem_singleton] at h
              subst h
              exact Nat.lt_succ_self _
        · intro p hp
          dsimp only at hp ⊢
          rcases List.mem_append.mp hp with h | h
          · rw [upd_ne _ _ (hfreshd p h)]
            exact hw.self_mem p h
          · rcases List.mem_cons.mp h with rfl | h
            · simp [upd_eq]
            · simp only [List.mem_singleton] at h
              subst h
              simp [upd_eq]
        · intro p hp x hx
          dsimp only at hp hx ⊢
          by_cases h2 : p.2 = st.next
          · rw [h2, upd_eq] at hx
            rw [h2]
            rcases Finset.mem_insert.mp hx with rfl | hx'
            · exact List.mem_append_right _ (by simp)
            · rw [Finset.mem_singleton] at hx'
              subst hx'
              exact List.mem_append_right _ (by simp)
          · rw [upd_ne _ _ h2] at hx
            rcases List.mem_append.mp hp with h | h
            · exact List.mem_append_left _ (hw.coherent p h x hx)
            · rcases List.mem_cons.mp h with rfl | h
              · exact absurd rfl h2
              · simp only [List.mem_singleton] at h
                exact absurd (congrArg Prod.snd h) h2

theorem wf_add_singular {st : Clusterer K} (hw : Wf st) (a : K) :
    Wf (st.add_singular a) := by
  unfold Clusterer.add_singular
  by_cases h : a ∈ st.keys
  · simpa [h] using hw
  · simp only [h, if_false]
    have hfreshd : ∀ p ∈ st.d, p.2 ≠ st.next := fun p hp =>
      Nat.ne_of_lt (hw.range p hp)
    refine ⟨?_, ?_, ?_, ?_⟩
    · show ((st.d ++ [(a, st.next)]).map Prod.fst).Nodup
      rw [List.map_append, List.nodup_append]
      refine ⟨hw.nodup, by simp, ?_⟩
      intro x hx hx'
      simp only [List.map_cons, List.map_nil, List.mem_singleton] at hx'
      exact h (hx' ▸ hx)
    · intro p hp
      rcases List.mem_append.mp hp with h' | h'
      · exact Nat.lt_succ_of_lt (hw.range p h')
      · simp only [List.mem_singleton] at h'
        subst h'
        exact Nat.lt_succ_self _
    · intro p hp
      dsimp only at hp ⊢
      rcases List.mem_append.mp hp with h' | h'
      · rw [upd_ne _ _ (hfreshd p h')]
        exact hw.self_mem p h'
      · simp only [List.mem_singleton] at h'
        subst h'
        simp [upd_eq]
    · intro p hp x hx
      dsimp only at hp hx ⊢
      by_cases h2 : p.2 = st.next
      · rw [h2, upd_eq] at hx
        rw [Finset.mem_singleton] at hx
        subst hx
        rw [h2]
        exact List.mem_append_right _ (by simp)
      · rw [upd_ne _ _ h2] at hx
        rcases List.mem_append.mp hp with h' | h'
        · exact List.mem_append_left _ (hw.coherent p h' x hx)
        · simp only [List.mem_singleton] at h'
          exact absurd (congrArg Prod.snd h') h2

theorem wf_applyOp {st : Clusterer K} (hw : Wf st) (op : ClOp K) :
    Wf (applyOp st op) := by
  cases op with
  | sing a => exact wf_add_singular hw a
  | pair a b => exact wf_add_pair hw a b

theorem wf_foldl {st : Clusterer K} (hw : Wf st) (ops : List (ClOp K)) :
    Wf (ops.foldl applyOp st) := by
  induction ops generalizing st with
  | nil => exact hw
  | cons op ops ih => exact ih (wf_applyOp hw op)

theorem wf_runOps (ops : List (ClOp K)) : Wf (runOps ops) :=
  wf_foldl wf_init ops

/-! ### The compiled partition -/

theorem mem_compile {st : Clusterer K} {s : Finset K} :
    s ∈ st.compile ↔ ∃ p ∈ st.d, s = st.heap p.2 := by
  unfold Clusterer.compile
  rw [List.mem_toFinset, List.mem_map]
  constructor
  · rintro ⟨p, hp, rfl⟩
    exact ⟨p, hp, rfl⟩
  · rintro ⟨p, hp, rfl⟩
    exact ⟨p, hp, rfl⟩

theorem compile_disjoint {st : Clusterer K} (hw : Wf st) {s t : Finset K}
    (hs : s ∈ st.compile) (ht : t ∈ st.compile) (hne : s ≠ t) : Disjoint s t := by
  rcases mem_compile.mp hs with ⟨p, hp, rfl⟩
  rcases mem_compile.mp ht with ⟨q, hq, rfl⟩
  rw [Finset.disjoint_left]
  intro x hxs hxt
  have h1 : (x, p.2) ∈ st.d := hw.coherent p hp x hxs
  have h2 : (x, q.2) ∈ st.d := hw.coherent q hq x hxt
  exact hne (dvalue_eq hw h1 h2 ▸ rfl)

theorem compile_unique {st : Clusterer K} (hw : Wf st) {s t : Finset K} {k : K}
    (hs : s ∈ st.compile) (ht : t ∈ st.compile) (hks : k ∈ s) (hkt : k ∈ t) :
    s = t := by
  by_contra hne
  exact (Finset.disjoint_left.mp (compile_disjoint hw hs ht hne)) hks hkt

theorem compile_cover {st : Clusterer K} (hw : Wf st) {k : K} :
    k ∈ st.keys ↔ ∃ s ∈ st.compile, k ∈ s := by
  constructor
  · intro h
    rcases mem_keys.mp h with ⟨i, hi⟩
    exact ⟨st.heap i, mem_compile.mpr ⟨(k, i), hi, rfl⟩, hw.self_mem (k, i) hi⟩
  · rintro ⟨s, hs, hks⟩
    rcases mem_compile.mp hs with ⟨p, hp, rfl⟩
    exact mem_keys.mpr ⟨p.2, hw.coherent p hp k hks⟩

/-! ### Two keys sharing one set object -/

theorem sameId_symm {st : Clusterer K} {x y : K} (h : sameId st x y) :
    sameId st y x := by
  rcases h with ⟨i, hx, hy⟩
  exact ⟨i, hy, hx⟩

theorem sameId_trans {st : Clusterer K} (hw : Wf st) {x y z : K}
    (h1 : sameId st x y) (h2 : sameId st y z) : sameId st x z := by
  rcases h1 with ⟨i, hx, hy⟩
  rcases h2 with ⟨j, hy', hz⟩
  exact ⟨i, hx, dvalue_eq hw hy' hy ▸ hz⟩

theorem sameId_mem_compile {st : Clusterer K} (hw : Wf st) {x k : K} {s : Finset K}
    (h : sameId st x k) (hk : k ∈ s) (hs : s ∈ st.compile) : x ∈ s := by
  rcases mem_compile.mp hs with ⟨p, hp, rfl⟩
  rcases h with ⟨i, hx, hk'⟩
  have h1 : (k, p.2) ∈ st.d := hw.coherent p hp k hk
  have h2 : i = p.2 := dvalue_eq hw hk' h1
  exact h2 ▸ hw.self_mem (x, i) hx

/-- calling `add_pair a b` associates `a` and `b` with one set object. -/
theorem sameId_add_pair {st : Clusterer K} (hw : Wf st) (a b : K) :
    sameId (st.add_pair a b) a b := by
  unfold Clusterer.add_pair
  cases hla : st.lookup a with
  | some ia =>
    cases hlb : st.lookup b with
    | some ib =>
      have ha : (a, ia) ∈ st.d := mem_of_lookup_eq_some hla
      have hb : (b, ib) ∈ st.d := mem_of_lookup_eq_some hlb
      have hbsb : b ∈ st.heap ib := hw.self_mem (b, ib) hb
      refine ⟨ia, ?_, ?_⟩
      · exact List.mem_map.mpr ⟨(a, ia), ha, by by_cases h : a ∈ st.heap ib <;> simp [h]⟩
      · exact List.mem_map.mpr ⟨(b, ib), hb, by simp [hbsb]⟩
    | none =>
      have ha : (a, ia) ∈ st.d := mem_of_lookup_eq_some hla
      exact ⟨ia, List.mem_append_left _ ha, List.mem_append_right _ (by simp)⟩
  | none =>
    cases hlb : st.lookup b with
    | some ib =>
      have hb : (b, ib) ∈ st.d := mem_of_lookup_eq_some hlb
      exact ⟨ib, List.mem_append_right _ (by simp), List.mem_append_left _ hb⟩
    | none =>
      by_cases hab : a = b
      · subst hab
        exact ⟨st.next, by simp, by simp⟩
      · simp only [hab, if_false]
        exact ⟨st.next, List.mem_append_right _ (by simp),
          List.mem_append_right _ (by simp)⟩

/-- no later call ever separates two keys that share a set object. -/
theorem sameId_applyOp {st : Clusterer K} (hw : Wf st) {x y : K}
    (h : sameId st x y) (op : ClOp K) : sameId (applyOp st op) x y := by
  rcases h with ⟨i, hx, hy⟩
  cases op with
  | sing a =>
    show sameId (st.add_singular a) x y
    unfold Clusterer.add_singular
    by_cases hk : a ∈ st.keys
    · exact ⟨i, by simpa [hk] using hx, by simpa [hk] using hy⟩
    · simp only [hk, if_false]
      exact ⟨i, List.mem_append_left _ hx, List.mem_append_left _ hy⟩
  | pair a b =>
    show sameId (st.add_pair a b) x y
    unfold Clusterer.add_pair
    cases hla : st.lookup a with
    | some ia =>
      cases hlb : st.lookup b with
      | some ib =>
        have hb : (b, ib) ∈ st.d := mem_of_lookup_eq_some hlb
        by_cases hib : i = ib
        · have hxb : x ∈ st.heap ib := (mem_heap_iff_assoc hw hb hx).mpr hib
          have hyb : y ∈ st.heap ib := (mem_heap_iff_assoc hw hb hy).mpr hib
          exact ⟨ia, List.mem_map.mpr ⟨(x, i), hx, by simp [hxb]⟩,
            List.mem_map.mpr ⟨(y, i), hy, by simp [hyb]⟩⟩
        · have hxb : x ∉ st.heap ib := fun hc =>
            hib ((mem_heap_iff_assoc hw hb hx).mp hc)
          have hyb : y ∉ st.heap ib := fun hc =>
            hib ((mem_heap_iff_assoc hw hb hy).mp hc)
          exact ⟨i, List.mem_map.mpr ⟨(x, i), hx, by simp [hxb]⟩,
            List.mem_map.mpr ⟨(y, i), hy, by simp [hyb]⟩⟩
      | none =>
        exact ⟨i, List.mem_append_left _ hx, List.mem_append_left _ hy⟩
    | none =>
      cases hlb : st.lookup b with
      | none =>
        by_cases hab : a = b
        · subst hab
          simp only [if_pos rfl]
          exact ⟨i, List.mem_append_left _ hx, List.mem_append_left _ hy⟩
        · simp only [hab, if_false]
          exact ⟨i, List.mem_append_left _ hx, List.mem_append_left _ hy⟩
      | some ib =>
        exact ⟨i, List.mem_append_left _ hx, List.mem_append_left _ hy⟩

theorem sameId_foldl {st : Clusterer K} (hw : Wf st) (ops : List (ClOp K)) {x y : K}
    (h : sameId st x y) : sameId (ops.foldl applyOp st) x y := by
  induction ops generalizing st with
  | nil => exact h
  | cons op ops ih => exact ih (wf_applyOp hw op) (sameId_applyOp hw h op)

/-- every `add_pair` call of the sequence leaves its two arguments sharing
one set object in the final state. -/
theorem pair_mem_sameId {st : Clusterer K} (hw : Wf st) {ops : List (ClOp K)}
    {a b : K} (h : ClOp.pair a b ∈ ops) :
    sameId (ops.foldl applyOp st) a b := by
  induction ops generalizing st with
  | nil => cases h
  | cons op ops ih =>
    rcases List.mem_cons.mp h with rfl | h'
    · exact sameId_foldl (wf_applyOp hw _) ops (sameId_add_pair hw a b)
    · exact ih (wf_applyOp hw op) h'

/-! ### Registered keys after a call sequence -/

theorem keys_add_singular {st : Clusterer K} {a k : K} :
    k ∈ (st.add_singular a).keys ↔ k ∈ st.keys ∨ k = a := by
  unfold Clusterer.add_singular
  by_cases h : a ∈ st.keys
  · simp only [h, if_true]
    constructor
    · exact Or.inl
    · rintro (hk | rfl)
      · exact hk
      · exact h
  · simp only [h, if_false]
    show k ∈ (st.d ++ [(a, st.next)]).map Prod.fst ↔ _
    rw [List.map_append, List.mem_append]
    simp [Clusterer.keys]

theorem keys_add_pair {st : Clusterer K} (hw : Wf st) {a b k : K} :
    k ∈ (st.add_pair a b).keys ↔ k ∈ st.keys ∨ k = a ∨ k = b := by
  unfold Clusterer.add_pair
  cases hla : st.lookup a with
  | some ia =>
    have ha : a ∈ st.keys := mem_keys.mpr ⟨ia, mem_of_lookup_eq_some hla⟩
    cases hlb : st.lookup b with
    | some ib =>
      have hb : b ∈ st.keys := mem_keys.mpr ⟨ib, mem_of_lookup_eq_some hlb⟩
      show k ∈ (st.d.map _).map Prod.fst ↔ _
      rw [keys_map_repoint]
      constructor
      · exact Or.inl
      · rintro (hk | rfl | rfl)
        · exact hk
        · exact ha
        · exact hb
    | none =>
      show k ∈ (st.d ++ [(b, ia)]).map Prod.fst ↔ _
      rw [List.map_append, List.mem_append]
      constructor
      · rintro (hk | hk)
        · exact Or.inl hk
        · simp only [List.map_cons, List.map_nil, List.mem_singleton] at hk
          exact Or.inr (Or.inr hk)
      · rintro (hk | rfl | rfl)
        · exact Or.inl hk
        · exact Or.inl ha
        · exact Or.inr (by simp)
  | none =>
    cases hlb : st.lookup b with
    | some ib =>
      have hb : b ∈ st.keys := mem_keys.mpr ⟨ib, mem_of_lookup_eq_some hlb⟩
      show k ∈ (st.d ++ [(a, ib)]).map Prod.fst ↔ _
      rw [List.map_append, List.mem_append]
      constructor
      · rintro (hk | hk)
        · exact Or.inl hk
        · simp only [List.map_cons, List.map_nil, List.mem_singleton] at hk
          exact Or.inr (Or.inl hk)
      · rintro (hk | rfl | rfl)
        · exact Or.inl hk
        · exact Or.inr (by simp)
        · exact Or.inl hb
    | none =>
      by_cases hab : a = b
      · subst hab
        simp only [if_pos rfl]
        show k ∈ (st.d ++ [(a, st.next)]).map Prod.fst ↔ _
        rw [List.map_append, List.mem_append]
        simp [Clusterer.keys, or_assoc]
      · simp only [hab, if_false]
        show k ∈ (st.d ++ [(a, st.next), (b, st.next)]).map Prod.fst ↔ _
        rw [List.map_append, List.mem_append]
        simp [Clusterer.keys]

theorem keys_foldl {st : Clusterer K} (hw : Wf st) (ops : List (ClOp K)) {k : K} :
    k ∈ (ops.foldl applyOp st).keys ↔ k ∈ st.keys ∨ k ∈ mentioned ops := by
  induction ops generalizing st with
  | nil => simp [mentioned]
  | cons op ops ih =>
    rw [List.foldl_cons, ih (wf_applyOp hw op)]
    cases op with
    | sing a =>
      show k ∈ (st.add_singular a).keys ∨ _ ↔ _
      rw [keys_add_singular]
      simp only [mentioned, List.mem_cons]
      tauto
    | pair a b =>
      show k ∈ (st.add_pair a b).keys ∨ _ ↔ _
      rw [keys_add_pair hw]
      simp only [mentioned, List.mem_cons]
      tauto

theorem keys_runOps (ops : List (ClOp K)) {k : K} :
    k ∈ (runOps ops).keys ↔ k ∈ mentioned ops := by
  rw [runOps, keys_foldl wf_init]
  simp [Clusterer.init, Clusterer.keys]

/-! ### Completeness: sharing a set object comes from a chain of pair calls -/

/-- chaining helper for the equivalence closure. -/
theorem eqv_link {Rel : K → K → Prop} {x y u v : K}
    (hx : x = u ∨ Relation.EqvGen Rel x u) (huv : Relation.EqvGen Rel u v)
    (hy : y = v ∨ Relation.EqvGen Rel y v) : Relation.EqvGen Rel x y := by
  have h1 : Relation.EqvGen Rel x u := by
    rcases hx with rfl | h
    · exact Relation.EqvGen.refl x
    · exact h
  have h2 : Relation.EqvGen Rel v y := by
    rcases hy with rfl | h
    · exact Relation.EqvGen.refl y
    · exact Relation.EqvGen.symm _ _ h
  exact Relation.EqvGen.trans _ _ _ h1 (Relation.EqvGen.trans _ _ _ huv h2)

/-- one call preserves the property that any two keys sharing a set object
are either equal or connected by the equivalence closure of `Rel`, provided
the call is `add_singular` or an `add_pair` on a `Rel`-related pair. -/
theorem sameId_step (Rel : K → K → Prop) {st : Clusterer K} (hw : Wf st)
    (hInv : ∀ x y, sameId st x y → x = y ∨ Relation.EqvGen Rel x y)
    (op : ClOp K) (hop : ∀ a b, op = .pair a b → Rel a b) :
    ∀ x y, sameId (applyOp st op) x y → x = y ∨ Relation.EqvGen Rel x y := by
  have hfresh : ∀ p ∈ st.d, p.2 ≠ st.next := fun p hp => Nat.ne_of_lt (hw.range p hp)
  cases op with
  | sing a =>
    intro x y h
    rcases h with ⟨i, hx, hy⟩
    unfold applyOp Clusterer.add_singular at hx hy
    by_cases hk : a ∈ st.keys
    · simp only [hk, if_true] at hx hy
      exact hInv x y ⟨i, hx, hy⟩
    · simp only [hk, if_false] at hx hy
      rcases List.mem_append.mp hx with hx' | hx' <;>
        rcases List.mem_append.mp hy with hy' | hy'
      · exact hInv x y ⟨i, hx', hy'⟩
      · simp only [List.mem_singleton, Prod.mk.injEq] at hy'
        exact absurd hy'.2 (hy'.2 ▸ hfresh _ hx')
      · simp only [List.mem_singleton, Prod.mk.injEq] at hx'
        exact absurd hx'.2 (hx'.2 ▸ hfresh _ hy')
      · simp only [List.mem_singleton, Prod.mk.injEq] at hx' hy'
        exact Or.inl (hx'.1.trans hy'.1.symm)
  | pair a b =>
    have hab : Relation.EqvGen Rel a b := Relation.EqvGen.rel _ _ (hop a b rfl)
    intro x y h
    rcases h with ⟨i, hx, hy⟩
    unfold applyOp Clusterer.add_pair at hx hy
    dsimp only at hx hy
    cases hla : st.lookup a with
    | some ia =>
      have ha : (a, ia) ∈ st.d := mem_of_lookup_eq_some hla
      cases hlb : st.lookup b with
      | some ib =>
        have hb : (b, ib) ∈ st.d := mem_of_lookup_eq_some hlb
        rw [hla, hlb] at hx hy
        dsimp only at hx hy
        rcases List.mem_map.mp hx with ⟨px, hpx, hex⟩
        rcases List.mem_map.mp hy with ⟨py, hpy, hey⟩
        by_cases hxb : px.1 ∈ st.heap ib <;> by_cases hyb : py.1 ∈ st.heap ib
        · -- both re-associated: both were at b's address before
          simp only [hxb, hyb, if_true, Prod.mk.injEq] at hex hey
          have hx' : (x, ib) ∈ st.d := by
            have : px.2 = ib := (mem_heap_iff_assoc hw hb hpx).mp hxb
            have hpx' : (px.1, px.2) ∈ st.d := by simpa using hpx
            rw [hex.1, this] at hpx'
            exact hpx'
          have hy' : (y, ib) ∈ st.d := by
            have : py.2 = ib := (mem_heap_iff_assoc hw hb hpy).mp hyb
            have hpy' : (py.1, py.2) ∈ st.d := by simpa using hpy
            rw [hey.1, this] at hpy'
            exact hpy'
          exact hInv x y ⟨ib, hx', hy'⟩
        · -- x at b's old address, y kept its address which must be ia
          simp only [hxb, hyb, if_true, if_false, Prod.mk.injEq] at hex hey
          have hia : i = ia := hex.2.symm
          have hx' : (x, ib) ∈ st.d := by
            have : px.2 = ib := (mem_heap_iff_assoc hw hb hpx).mp hxb
            have hpx' : (px.1, px.2) ∈ st.d := by simpa using hpx
            rw [hex.1, this] at hpx'
            exact hpx'
          have hy' : (y, ia) ∈ st.d := by
            have hpy' : (py.1, py.2) ∈ st.d := by simpa using hpy
            rw [hey] at hpy'
            exact hia ▸ hpy'
          refine Or.inr (eqv_link (hInv x b ⟨ib, hx', hb⟩)
            (Relation.EqvGen.symm _ _ hab) (hInv y a ⟨ia, hy', ha⟩))
        · -- symmetric to the previous case
          simp only [hxb, hyb, if_true, if_false, Prod.mk.injEq] at hex hey
          have hia : i = ia := hey.2.symm
          have hy' : (y, ib) ∈ st.d := by
            have : py.2 = ib := (mem_heap_iff_assoc hw hb hpy).mp hyb
            have hpy' : (py.1, py.2) ∈ st.d := by simpa using hpy
            rw [hey.1, this] at hpy'
            exact hpy'
          have hx' : (x, ia) ∈ st.d := by
            have hpx' : (px.1, px.2) ∈ st.d := by simpa using hpx
            rw [hex] at hpx'
            exact hia ▸ hpx'
          refine Or.inr (eqv_link (hInv x a ⟨ia, hx', ha⟩) hab
            (hInv y b ⟨ib, hy', hb⟩))
        · -- neither re-associated: both kept their old shared address
          simp only [hxb, hyb, if_false] at hex hey
          have hx' : (x, i) ∈ st.d := by
            have hpx' : (px.1, px.2) ∈ st.d := by simpa using hpx
            rw [hex] at hpx'
            exact hpx'
          have hy' : (y, i) ∈ st.d := by
            have hpy' : (py.1, py.2) ∈ st.d := by simpa using hpy
            rw [hey] at hpy'
            exact hpy'
          exact hInv x y ⟨i, hx', hy'⟩
      | none =>
        rw [hla, hlb] at hx hy
        dsimp only at hx hy
        rcases List.mem_append.mp hx with hx' | hx' <;>
          rcases List.mem_append.mp hy with hy' | hy'
        · exact hInv x y ⟨i, hx', hy'⟩
        · simp only [List.mem_singleton, Prod.mk.injEq] at hy'
          have hia : i = ia := hy'.2
          refine Or.inr (eqv_link (hInv x a ⟨ia, hia ▸ hx', ha⟩) hab
            (Or.inl hy'.1))
        · simp only [List.mem_singleton, Prod.mk.injEq] at hx'
          have hia : i = ia := hx'.2
          refine Or.inr (Relation.EqvGen.symm _ _ (eqv_link
            (hInv y a ⟨ia, hia ▸ hy', ha⟩) hab (Or.inl hx'.1)))
        · simp only [List.mem_singleton, Prod.mk.injEq] at hx' hy'
          exact Or.inl (hx'.1.trans hy'.1.symm)
    | none =>
      cases hlb : st.lookup b with
      | some ib =>
        have hb : (b, ib) ∈ st.d := mem_of_lookup_eq_some hlb
        rw [hla, hlb] at hx hy
        dsimp only at hx hy
        rcases List.mem_append.mp hx with hx' | hx' <;>
          rcases List.mem_append.mp hy with hy' | hy'
        · exact hInv x y ⟨i, hx', hy'⟩
        · simp only [List.mem_singleton, Prod.mk.injEq] at hy'
          have hib : i = ib := hy'.2
          refine Or.inr (eqv_link (hInv x b ⟨ib, hib ▸ hx', hb⟩)
            (Relation.EqvGen.symm _ _ hab) (Or.inl hy'.1))
        · simp only [List.mem_singleton, Prod.mk.injEq] at hx'
          have hib : i = ib := hx'.2
          refine Or.inr (Relation.EqvGen.symm _ _ (eqv_link
            (hInv y b ⟨ib, hib ▸ hy', hb⟩) (Relation.EqvGen.symm _ _ hab)
            (Or.inl hx'.1)))
        · simp only [List.mem_singleton, Prod.mk.injEq] at hx' hy'
          exact Or.inl (hx'.1.trans hy'.1.symm)
      | none =>
        rw [hla, hlb] at hx hy
        by_cases habeq : a = b
        · subst habeq
          simp only [if_pos rfl] at hx hy
          rcases List.mem_append.mp hx with hx' | hx' <;>
            rcases List.mem_append.mp hy with hy' | hy'
          · exact hInv x y ⟨i, hx', hy'⟩
          · simp only [List.mem_singleton, Prod.mk.injEq] at hy'
            exact absurd hy'.2 (hy'.2 ▸ hfresh _ hx')
          · simp only [List.mem_singleton, Prod.mk.injEq] at hx'
            exact absurd hx'.2 (hx'.2 ▸ hfresh _ hy')
          · simp only [List.mem_singleton, Prod.mk.injEq] at hx' hy'
            exact Or.inl (hx'.1.trans hy'.1.symm)
        · simp only [habeq, if_false] at hx hy
          rcases List.mem_append.mp hx with hx' | hx' <;>
            rcases List.mem_append.mp hy with hy' | hy'
          · exact hInv x y ⟨i, hx', hy'⟩
          · rcases List.mem_cons.mp hy' with hy'' | hy'' <;>
              [exact absurd (congrArg Prod.snd hy'') (hfresh (x, i) hx');
               skip]
            simp only [List.mem_singleton, Prod.mk.injEq] at hy''
            exact absurd hy''.2 (hy''.2 ▸ hfresh _ hx')
          · rcases List.mem_cons.mp hx' with hx'' | hx'' <;>
              [exact absurd (congrArg Prod.snd hx'') (hfresh (y, i) hy');
               skip]
            simp only [List.mem_singleton, Prod.mk.injEq] at hx''
            exact absurd hx''.2 (hx''.2 ▸ hfresh _ hy')
          · rcases List.mem_cons.mp hx' with hx'' | hx'' <;>
              rcases List.mem_cons.mp hy' with hy'' | hy''
            · exact Or.inl ((congrArg Prod.fst hx'').trans
                (congrArg Prod.fst hy'').symm)
            · simp only [List.mem_singleton, Prod.mk.injEq] at hy''
              have : x = a := congrArg Prod.fst hx''
              exact Or.inr (this ▸ hy''.1 ▸ hab)
            · simp only [List.mem_singleton, Prod.mk.injEq] at hx''
              have : y = a := congrArg Prod.fst hy''
              exact Or.inr (Relation.EqvGen.symm _ _ (this ▸ hx''.1 ▸ hab))
            · simp only [List.mem_singleton, Prod.mk.injEq] at hx'' hy''
              exact Or.inl (hx''.1.trans hy''.1.symm)

/-- any two keys sharing a set object after a call sequence are equal or
connected by the chain of `add_pair` calls of the sequence. -/
theorem sameId_complete {Rel : K → K → Prop} (ops : List (ClOp K))
    (hops : ∀ a b, ClOp.pair a b ∈ ops → Rel a b)
    {st : Clusterer K} (hw : Wf st)
    (hInv : ∀ x y, sameId st x y → x = y ∨ Relation.EqvGen Rel x y)
    {x y : K} (h : sameId (ops.foldl applyOp st) x y) :
    x = y ∨ Relation.EqvGen Rel x y := by
  induction ops generalizing st with
  | nil => exact hInv x y h
  | cons op ops ih =>
    refine ih (fun a b hm => hops a b (List.mem_cons_of_mem _ hm))
      (wf_applyOp hw op)
      (sameId_step Rel hw hInv op (fun a b he => hops a b (he ▸ List.mem_cons_self _ _)))
      h

/-! ### Claim C3 -/

/-- C3: after any sequence of `add_singular` and `add_pair` calls on a
fresh `Clusterer`, `compile` is a true partition of the set of keys passed
to those calls: distinct returned sets are pairwise disjoint, a key was
registered by some call iff some returned set contains it, and no key lies
in two returned sets. -/
theorem clusterer_compile_is_partition (ops : List (ClOp K)) :
    (∀ s ∈ (runOps ops).compile, ∀ t ∈ (runOps ops).compile, s ≠ t → Disjoint s t) ∧
    (∀ k : K, k ∈ mentioned ops ↔ ∃ s ∈ (runOps ops).compile, k ∈ s) ∧
    (∀ (k : K) (s t : Finset K), s ∈ (runOps ops).compile →
      t ∈ (runOps ops).compile → k ∈ s → k ∈ t → s = t) := by
  have hw := wf_runOps (K := K) ops
  refine ⟨fun s hs t ht hne => compile_disjoint hw hs ht hne,
    fun k => ?_, fun k s t hs ht hks hkt => compile_unique hw hs ht hks hkt⟩
  rw [← keys_runOps]
  exact compile_cover hw

/-- witness for C3 at a concrete call sequence: the partition obtained
from `add_pair 1 2; add_singular 3; add_pair 2 4` is `{{1,2,4},{3}}`, its
two sets are disjoint, and `3` is covered. -/
theorem clusterer_compile_is_partition_witness :
    Disjoint ({1, 2, 4} : Finset Nat) ({3} : Finset Nat) ∧
    (3 ∈ mentioned [ClOp.pair 1 2, ClOp.sing 3, ClOp.pair 2 4] ↔
      ∃ s ∈ (runOps [ClOp.pair 1 2, ClOp.sing 3, ClOp.pair 2 4]).compile, 3 ∈ s) := by
  have h := clusterer_compile_is_partition [ClOp.pair 1 2, ClOp.sing 3, ClOp.pair 2 4]
  exact ⟨h.1 {1, 2, 4} (by decide) {3} (by decide) (by decide), h.2.1 3⟩

/-! ### Claim C4 -/

theorem simOps_cons (r : FileRec × FileRec × ℚ) (rs : List (FileRec × FileRec × ℚ)) :
    simOps (r :: rs) =
      (if (0.9 : ℚ) ≤ r.2.2 then [ClOp.pair r.1 r.2.1] else []) ++ simOps rs := by
  unfold simOps
  rw [List.filterMap_cons]
  by_cases h : (0.9 : ℚ) ≤ r.2.2 <;> simp [h]

theorem compileSimilars_foldl (results : List (FileRec × FileRec × ℚ))
    (st : Clusterer FileRec) :
    results.foldl
        (fun cl r => if (0.9 : ℚ) ≤ r.2.2 then cl.add_pair r.1 r.2.1 else cl) st
      = (simOps results).foldl applyOp st := by
  induction results generalizing st with
  | nil => rfl
  | cons r rs ih =>
    rw [List.foldl_cons, simOps_cons, List.foldl_append]
    by_cases h : (0.9 : ℚ) ≤ r.2.2
    · simp only [h, if_true]
      exact ih _
    · simp only [h, if_false]
      exact ih st

theorem compileSimilars_eq_runOps (results : List (FileRec × FileRec × ℚ)) :
    compileSimilars results = runOps (simOps results) :=
  compileSimilars_foldl results .init

/-- C4: if the comparison results score both (A, B) and (B, C) at or above
0.9, the compiled similarity sets contain a single group holding A, B and
C together — whether or not (A, C) was ever compared or scored — and any
compiled group containing one of them is that group. -/
theorem similars_transitive (results : List (FileRec × FileRec × ℚ))
    (A B C : FileRec) (sAB sBC : ℚ)
    (h1 : (A, B, sAB) ∈ results) (h2 : (B, C, sBC) ∈ results)
    (hs1 : (0.9 : ℚ) ≤ sAB) (hs2 : (0.9 : ℚ) ≤ sBC) (hAB : A ≠ B) :
    ∃ g ∈ similaritySets results, A ∈ g ∧ B ∈ g ∧ C ∈ g ∧
      ∀ g' ∈ similaritySets results, (A ∈ g' ∨ B ∈ g' ∨ C ∈ g') → g' = g := by
  have hw := wf_runOps (simOps results)
  have hmemAB : ClOp.pair A B ∈ simOps results :=
    List.mem_filterMap.mpr ⟨(A, B, sAB), h1, by simp [hs1]⟩
  have hmemBC : ClOp.pair B C ∈ simOps results :=
    List.mem_filterMap.mpr ⟨(B, C, sBC), h2, by simp [hs2]⟩
  have hsAB : sameId (runOps (simOps results)) A B :=
    pair_mem_sameId wf_init hmemAB
  have hsBC : sameId (runOps (simOps results)) B C :=
    pair_mem_sameId wf_init hmemBC
  rcases hsAB with ⟨i, hA, hB⟩
  rcases hsBC with ⟨j, hB', hC⟩
  have hij : i = j := dvalue_eq hw hB hB'
  subst hij
  set st := runOps (simOps results) with hst
  have hgc : st.heap i ∈ st.compile := mem_compile.mpr ⟨(A, i), hA, rfl⟩
  have hAm : A ∈ st.heap i := hw.self_mem (A, i) hA
  have hBm : B ∈ st.heap i := hw.self_mem (B, i) hB
  have hCm : C ∈ st.heap i := hw.self_mem (C, i) hC
  have hcard : 1 < (st.heap i).card :=
    Finset.one_lt_card.mpr ⟨A, hAm, B, hBm, hAB⟩
  have hsim : st.heap i ∈ similaritySets results := by
    unfold similaritySets
    rw [compileSimilars_eq_runOps]
    exact Finset.mem_filter.mpr ⟨hgc, by simpa using hcard⟩
  refine ⟨st.heap i, hsim, hAm, hBm, hCm, ?_⟩
  intro g' hg' hmem
  have hg'c : g' ∈ st.compile := by
    have := Finset.mem_filter.mp (by
      unfold similaritySets at hg'
      rw [compileSimilars_eq_runOps] at hg'
      exact hg')
    exact this.1
  rcases hmem with hm | hm | hm
  · exact compile_unique hw hg'c hgc hm hAm
  · exact compile_unique hw hg'c hgc hm hBm
  · exact compile_unique hw hg'c hgc hm hCm

/-- witness for C4 at a concrete input: results scoring (A, B) at 1.0 and
(B, C) at 0.95 with the pair (A, C) never compared. -/
theorem similars_transitive_witness :
    ∃ g ∈ similaritySets
        [(⟨"a", [], "a", "", true, 0⟩, ⟨"b", [], "b", "", true, 0⟩, (1 : ℚ)),
         (⟨"b", [], "b", "", true, 0⟩, ⟨"c", [], "c", "", true, 0⟩, (0.95 : ℚ))],
      (⟨"a", [], "a", "", true, 0⟩ : FileRec) ∈ g ∧
      (⟨"b", [], "b", "", true, 0⟩ : FileRec) ∈ g ∧
      (⟨"c", [], "c", "", true, 0⟩ : FileRec) ∈ g ∧
      ∀ g' ∈ similaritySets
        [(⟨"a", [], "a", "", true, 0⟩, ⟨"b", [], "b", "", true, 0⟩, (1 : ℚ)),
         (⟨"b", [], "b", "", true, 0⟩, ⟨"c", [], "c", "", true, 0⟩, (0.95 : ℚ))],
        ((⟨"a", [], "a", "", true, 0⟩ : FileRec) ∈ g' ∨
         (⟨"b", [], "b", "", true, 0⟩ : FileRec) ∈ g' ∨
         (⟨"c", [], "c", "", true, 0⟩ : FileRec) ∈ g') → g' = g :=
  similars_transitive _ _ _ _ 1 0.95
    (List.mem_cons_self _ _)
    (List.mem_cons_of_mem _ (List.mem_cons_self _ _))
    (by norm_num) (by norm_num) (by decide)

/-! ### Claims C5 and C9: the perceptual pre-clustering stage -/

theorem pyDedup_aux {α : Type} [DecidableEq α] (l : List α) (acc : List α) (x : α) :
    x ∈ l.foldl (fun acc x => if x ∈ acc then acc else acc ++ [x]) acc ↔
      x ∈ acc ∨ x ∈ l := by
  induction l generalizing acc with
  | nil => simp
  | cons y ys ih =>
    rw [List.foldl_cons]
    by_cases h : y ∈ acc
    · rw [if_pos h, ih]
      simp only [List.mem_cons]
      constructor
      · rintro (h1 | h1)
        · exact Or.inl h1
        · exact Or.inr (Or.inr h1)
      · rintro (h1 | rfl | h1)
        · exact Or.inl h1
        · exact Or.inl h
        · exact Or.inr h1
    · rw [if_neg h, ih]
      simp only [List.mem_append, List.mem_singleton, List.mem_cons]
      tauto

theorem mem_pyDedup {α : Type} [DecidableEq α] {l : List α} {x : α} :
    x ∈ pyDedup l ↔ x ∈ l := by
  unfold pyDedup
  rw [pyDedup_aux]
  simp

theorem combos_mem {α : Type} {l : List α} {p : α × α} (h : p ∈ combos l) :
    p.1 ∈ l ∧ p.2 ∈ l := by
  induction l with
  | nil => cases h
  | cons x xs ih =>
    unfold combos at h
    rcases List.mem_append.mp h with h' | h'
    · rcases List.mem_map.mp h' with ⟨y, hy, rfl⟩
      exact ⟨List.mem_cons_self _ _, List.mem_cons_of_mem _ hy⟩
    · have := ih h'
      exact ⟨List.mem_cons_of_mem _ this.1, List.mem_cons_of_mem _ this.2⟩

theorem mem_combos_of_mem {α : Type} {l : List α} {a b : α}
    (ha : a ∈ l) (hb : b ∈ l) (hne : a ≠ b) :
    (a, b) ∈ combos l ∨ (b, a) ∈ combos l := by
  induction l with
  | nil => cases ha
  | cons x xs ih =>
    unfold combos
    rcases List.mem_cons.mp ha with rfl | ha'
    · have hb' : b ∈ xs := by
        rcases List.mem_cons.mp hb with rfl | h
        · exact absurd rfl hne
        · exact h
      exact Or.inl (List.mem_append_left _ (List.mem_map.mpr ⟨b, hb', rfl⟩))
    · rcases List.mem_cons.mp hb with rfl | hb'
      · exact Or.inr (List.mem_append_left _ (List.mem_map.mpr ⟨a, ha', rfl⟩))
      · rcases ih ha' hb' with h | h
        · exact Or.inl (List.mem_append_right _ h)
        · exact Or.inr (List.mem_append_right _ h)

/-- a pair union is only ever issued for values within the threshold. -/
theorem pair_mem_phashOps {t : Nat} {files : List FileRec} {p q : Nat}
    (h : ClOp.pair p q ∈ phashOps t files) : popcount (p ^^^ q) ≤ t := by
  unfold phashOps at h
  rcases List.mem_append.mp h with h' | h'
  · rcases List.mem_map.mp h' with ⟨f, _, hf⟩
    cases hf
  · rcases List.mem_filterMap.mp h' with ⟨pq, hpq, he⟩
    by_cases hc : popcount (pq.1 ^^^ pq.2) ≤ t
    · rw [if_pos hc] at he
      simp only [Option.some.injEq] at he
      injection he with h1 h2
      subst h1
      subst h2
      exact hc
    · rw [if_neg hc] at he
      cases he

/-- every pair union issued at a low threshold is issued at any higher
threshold. -/
theorem pair_mem_phashOps_mono {t1 t2 : Nat} (h12 : t1 ≤ t2)
    {files : List FileRec} {p q : Nat}
    (h : ClOp.pair p q ∈ phashOps t1 files) : ClOp.pair p q ∈ phashOps t2 files := by
  unfold phashOps at h ⊢
  rcases List.mem_append.mp h with h' | h'
  · rcases List.mem_map.mp h' with ⟨f, _, hf⟩
    cases hf
  · rcases List.mem_filterMap.mp h' with ⟨pq, hpq, he⟩
    by_cases hc : popcount (pq.1 ^^^ pq.2) ≤ t1
    · rw [if_pos hc] at he
      refine List.mem_append_right _ (List.mem_filterMap.mpr ⟨pq, hpq, ?_⟩)
      rw [if_pos (le_trans hc h12)]
      exact he
    · rw [if_neg hc] at he
      cases he

theorem mem_mentioned_of_sing {ops : List (ClOp K)} {a : K}
    (h : ClOp.sing a ∈ ops) : a ∈ mentioned ops := by
  induction ops with
  | nil => cases h
  | cons op rest ih =>
    rcases List.mem_cons.mp h with rfl | h'
    · exact List.mem_cons_self _ _
    · cases op with
      | sing b => exact List.mem_cons_of_mem _ (ih h')
      | pair b c => exact List.mem_cons_of_mem _ (List.mem_cons_of_mem _ (ih h'))

theorem mentioned_mem_exists {ops : List (ClOp K)} {k : K} (h : k ∈ mentioned ops) :
    ClOp.sing k ∈ ops ∨ (∃ b, ClOp.pair k b ∈ ops) ∨ (∃ a, ClOp.pair a k ∈ ops) := by
  induction ops with
  | nil => cases h
  | cons op rest ih =>
    cases op with
    | sing a =>
      rcases List.mem_cons.mp (h : k ∈ a :: mentioned rest) with rfl | h'
      · exact Or.inl (List.mem_cons_self _ _)
      · rcases ih h' with h1 | ⟨b, h1⟩ | ⟨a', h1⟩
        · exact Or.inl (List.mem_cons_of_mem _ h1)
        · exact Or.inr (Or.inl ⟨b, List.mem_cons_of_mem _ h1⟩)
        · exact Or.inr (Or.inr ⟨a', List.mem_cons_of_mem _ h1⟩)
    | pair a b =>
      rcases List.mem_cons.mp (h : k ∈ a :: b :: mentioned rest) with rfl | h'
      · exact Or.inr (Or.inl ⟨b, List.mem_cons_self _ _⟩)
      · rcases List.mem_cons.mp h' with rfl | h''
        · exact Or.inr (Or.inr ⟨a, List.mem_cons_self _ _⟩)
        · rcases ih h'' with h1 | ⟨b', h1⟩ | ⟨a', h1⟩
          · exact Or.inl (List.mem_cons_of_mem _ h1)
          · exact Or.inr (Or.inl ⟨b', List.mem_cons_of_mem _ h1⟩)
          · exact Or.inr (Or.inr ⟨a', List.mem_cons_of_mem _ h1⟩)

/-- the registered keys of the perceptual Clusterer are exactly the
perceptual-hash values present among the input files. -/
theorem mentioned_phashOps {t : Nat} {files : List FileRec} {k : Nat} :
    k ∈ mentioned (phashOps t files) ↔ ∃ f ∈ files, f.phash = k := by
  constructor
  · intro h
    rcases mentioned_mem_exists h with h1 | ⟨b, h1⟩ | ⟨a, h1⟩
    · unfold phashOps at h1
      rcases List.mem_append.mp h1 with h' | h'
      · rcases List.mem_map.mp h' with ⟨f, hf, he⟩
        injection he with he'
        exact ⟨f, hf, he'⟩
      · rcases List.mem_filterMap.mp h' with ⟨pq, hpq, he⟩
        by_cases hc : popcount (pq.1 ^^^ pq.2) ≤ t
        · rw [if_pos hc] at he
          simp only [Option.some.injEq] at he
          cases he
        · rw [if_neg hc] at he
          cases he
    · unfold phashOps at h1
      rcases List.mem_append.mp h1 with h' | h'
      · rcases List.mem_map.mp h' with ⟨f, hf, he⟩
        cases he
      · rcases List.mem_filterMap.mp h' with ⟨pq, hpq, he⟩
        by_cases hc : popcount (pq.1 ^^^ pq.2) ≤ t
        · rw [if_pos hc] at he
          simp only [Option.some.injEq] at he
          injection he with h2 h3
          have hk : pq.1 ∈ pyDedup (files.map (·.phash)) := (combos_mem hpq).1
          rcases List.mem_map.mp (mem_pyDedup.mp hk) with ⟨f, hf, he'⟩
          exact ⟨f, hf, h2 ▸ he'⟩
        · rw [if_neg hc] at he
          cases he
    · unfold phashOps at h1
      rcases List.mem_append.mp h1 with h' | h'
      · rcases List.mem_map.mp h' with ⟨f, hf, he⟩
        cases he
      · rcases List.mem_filterMap.mp h' with ⟨pq, hpq, he⟩
        by_cases hc : popcount (pq.1 ^^^ pq.2) ≤ t
        · rw [if_pos hc] at he
          simp only [Option.some.injEq] at he
          injection he with h2 h3
          have hk : pq.2 ∈ pyDedup (files.map (·.phash)) := (combos_mem hpq).2
          rcases List.mem_map.mp (mem_pyDedup.mp hk) with ⟨f, hf, he'⟩
          exact ⟨f, hf, h3 ▸ he'⟩
        · rw [if_neg hc] at he
          cases he
  · rintro ⟨f, hf, rfl⟩
    apply mem_mentioned_of_sing
    unfold phashOps
    exact List.mem_append_left _ (List.mem_map.mpr ⟨f, hf, rfl⟩)

theorem mem_expandGroup {files : List FileRec} {g : Finset Nat} {f : FileRec} :
    f ∈ expandGroup files g ↔ f ∈ files ∧ f.phash ∈ g := by
  unfold expandGroup
  rw [List.mem_toFinset, List.mem_filter]
  simp

/-- soundness: keys connected by the closure of the issued pairs share a
set object in the final state (or are equal). -/
theorem eqvGen_sameId {ops : List (ClOp K)} {Rel : K → K → Prop}
    (hRel : ∀ a b, Rel a b → ClOp.pair a b ∈ ops) {x y : K}
    (h : Relation.EqvGen Rel x y) :
    x = y ∨ sameId (runOps ops) x y := by
  have hw := wf_runOps (K := K) ops
  induction h with
  | rel a b hr => exact Or.inr (pair_mem_sameId wf_init (hRel a b hr))
  | refl a => exact Or.inl rfl
  | symm a b hab ih =>
    rcases ih with rfl | hs
    · exact Or.inl rfl
    · exact Or.inr (sameId_symm hs)
  | trans a b c hab hbc ih1 ih2 =>
    rcases ih1 with rfl | hs1
    · exact ih2
    · rcases ih2 with rfl | hs2
      · exact Or.inr hs1
      · exact Or.inr (sameId_trans hw hs1 hs2)

/-- C5: the perceptual pre-clustering stage.  Every distinct value is
registered; only pairs of values within the Hamming threshold are unioned,
and any two files whose values are within the threshold land in one
candidate group; the emitted groups partition the input files; each group
is closed under sharing a perceptual-hash value; and `group_similars`
emits exactly the groups with at least two files. -/
theorem match_phashes_spec (t : Nat) (files : List FileRec) :
    (∀ k : Nat, k ∈ (similar_phashes t files).keys ↔ ∃ f ∈ files, f.phash = k) ∧
    (∀ p q : Nat, ClOp.pair p q ∈ phashOps t files → popcount (p ^^^ q) ≤ t) ∧
    (∀ f ∈ files, ∃ g ∈ match_phashes t files, f ∈ g) ∧
    (∀ g ∈ match_phashes t files, ∀ g' ∈ match_phashes t files,
      ∀ f : FileRec, f ∈ g → f ∈ g' → g = g') ∧
    (∀ f1 ∈ files, ∀ f2 ∈ files, popcount (f1.phash ^^^ f2.phash) ≤ t →
      ∃ g ∈ match_phashes t files, f1 ∈ g ∧ f2 ∈ g) ∧
    (∀ g ∈ match_phashes t files, ∀ f ∈ g,
      f ∈ files ∧ ∀ f' ∈ files, f'.phash = f.phash → f' ∈ g) ∧
    (∀ s : Finset FileRec,
      s ∈ group_similars t files ↔ s ∈ match_phashes t files ∧ 2 ≤ s.card) := by
  have hw : Wf (similar_phashes t files) := wf_runOps (phashOps t files)
  have hkeys : ∀ k : Nat,
      k ∈ (similar_phashes t files).keys ↔ ∃ f ∈ files, f.phash = k := by
    intro k
    rw [similar_phashes, keys_runOps]
    exact mentioned_phashOps
  have hcover : ∀ f ∈ files, ∃ c ∈ (similar_phashes t files).compile,
      f.phash ∈ c := by
    intro f hf
    exact (compile_cover hw).mp ((hkeys f.phash).mpr ⟨f, hf, rfl⟩)
  refine ⟨hkeys, fun p q h => pair_mem_phashOps h, ?_, ?_, ?_, ?_, ?_⟩
  · intro f hf
    rcases hcover f hf with ⟨c, hc, hfc⟩
    exact ⟨expandGroup files c, Finset.mem_image_of_mem _ hc,
      mem_expandGroup.mpr ⟨hf, hfc⟩⟩
  · intro g hg g' hg' f hfg hfg'
    rcases Finset.mem_image.mp hg with ⟨c, hc, rfl⟩
    rcases Finset.mem_image.mp hg' with ⟨c', hc', rfl⟩
    have h1 := mem_expandGroup.mp hfg
    have h2 := mem_expandGroup.mp hfg'
    rw [compile_unique hw hc hc' h1.2 h2.2]
  · intro f1 hf1 f2 hf2 hdist
    by_cases heq : f1.phash = f2.phash
    · rcases hcover f1 hf1 with ⟨c, hc, hfc⟩
      exact ⟨expandGroup files c, Finset.mem_image_of_mem _ hc,
        mem_expandGroup.mpr ⟨hf1, hfc⟩, mem_expandGroup.mpr ⟨hf2, heq ▸ hfc⟩⟩
    · have hp1 : f1.phash ∈ pyDedup (files.map (·.phash)) :=
        mem_pyDedup.mpr (List.mem_map.mpr ⟨f1, hf1, rfl⟩)
      have hp2 : f2.phash ∈ pyDedup (files.map (·.phash)) :=
        mem_pyDedup.mpr (List.mem_map.mpr ⟨f2, hf2, rfl⟩)
      have hpair : ClOp.pair f1.phash f2.phash ∈ phashOps t files ∨
          ClOp.pair f2.phash f1.phash ∈ phashOps t files := by
        rcases mem_combos_of_mem hp1 hp2 heq with h | h
        · refine Or.inl ?_
          unfold phashOps
          refine List.mem_append_right _ (List.mem_filterMap.mpr ⟨_, h, ?_⟩)
          rw [if_pos hdist]
        · refine Or.inr ?_
          unfold phashOps
          refine List.mem_append_right _ (List.mem_filterMap.mpr ⟨_, h, ?_⟩)
          rw [if_pos (by rwa [Nat.xor_comm])]
      have hsame : sameId (similar_phashes t files) f1.phash f2.phash := by
        rcases hpair with h | h
        · exact pair_mem_sameId wf_init h
        · exact sameId_symm (pair_mem_sameId wf_init h)
      rcases hsame with ⟨i, hi1, hi2⟩
      refine ⟨expandGroup files ((similar_phashes t files).heap i),
        Finset.mem_image_of_mem _ (mem_compile.mpr ⟨_, hi1, rfl⟩), ?_, ?_⟩
      · exact mem_expandGroup.mpr ⟨hf1, hw.self_mem _ hi1⟩
      · exact mem_expandGroup.mpr ⟨hf2, hw.self_mem _ hi2⟩
  · intro g hg f hfg
    rcases Finset.mem_image.mp hg with ⟨c, hc, rfl⟩
    have h1 := mem_expandGroup.mp hfg
    exact ⟨h1.1, fun f' hf' he => mem_expandGroup.mpr ⟨hf', he ▸ h1.2⟩⟩
  · intro s
    unfold group_similars
    rw [Finset.mem_filter]
    constructor
    · rintro ⟨h1, h2⟩
      exact ⟨h1, by omega⟩
    · rintro ⟨h1, h2⟩
      exact ⟨h1, by simpa using h2⟩

/-- witness for C5 at a concrete input: three image files with values 0, 1
and 255 at threshold 2 — the first two (one bit apart) land in one
candidate group. -/
theorem match_phashes_spec_witness :
    ∃ g ∈ match_phashes 2
        [⟨"a", [], "a", ".jpg", true, 0⟩, ⟨"b", [], "b", ".jpg", true, 1⟩,
         ⟨"c", [], "c", ".jpg", true, 255⟩],
      (⟨"a", [], "a", ".jpg", true, 0⟩ : FileRec) ∈ g ∧
      (⟨"b", [], "b", ".jpg", true, 1⟩ : FileRec) ∈ g :=
  (match_phashes_spec 2
    [⟨"a", [], "a", ".jpg", true, 0⟩, ⟨"b", [], "b", ".jpg", true, 1⟩,
     ⟨"c", [], "c", ".jpg", true, 255⟩]).2.2.2.2.1
    _ (by decide) _ (by decide) (by decide)

/-- C9: perceptual clustering is monotone in the Hamming threshold: for
thresholds t1 at most t2, every pair of values unioned at t1 is unioned at
t2, and every compiled cluster of the t1 run is contained in a compiled
cluster of the t2 run. -/
theorem phash_threshold_monotone (t1 t2 : Nat) (h12 : t1 ≤ t2)
    (files : List FileRec) :
    (∀ p q : Nat, ClOp.pair p q ∈ phashOps t1 files →
      ClOp.pair p q ∈ phashOps t2 files) ∧
    (∀ s ∈ (similar_phashes t1 files).compile,
      ∃ s' ∈ (similar_phashes t2 files).compile, s ⊆ s') := by
  have hw1 : Wf (similar_phashes t1 files) := wf_runOps (phashOps t1 files)
  have hw2 : Wf (similar_phashes t2 files) := wf_runOps (phashOps t2 files)
  refine ⟨fun p q h => pair_mem_phashOps_mono h12 h, ?_⟩
  intro s hs
  rcases mem_compile.mp hs with ⟨pr, hpr, rfl⟩
  set k := pr.1 with hk
  have hkd : (k, pr.2) ∈ (similar_phashes t1 files).d := by simpa using hpr
  have hkmem : k ∈ (similar_phashes t1 files).heap pr.2 := hw1.self_mem pr hpr
  have hkreg2 : k ∈ (similar_phashes t2 files).keys := by
    rw [similar_phashes, keys_runOps, mentioned_phashOps]
    have := (keys_runOps (phashOps t1 files)).mp (mem_keys.mpr ⟨pr.2, hkd⟩)
    exact mentioned_phashOps.mp this
  rcases (compile_cover hw2).mp hkreg2 with ⟨s', hs', hks'⟩
  refine ⟨s', hs', ?_⟩
  intro x hx
  have hxd : (x, pr.2) ∈ (similar_phashes t1 files).d := hw1.coherent pr hpr x hx
  have hsame1 : sameId (similar_phashes t1 files) x k := ⟨pr.2, hxd, hkd⟩
  have hconn : x = k ∨ Relation.EqvGen
      (fun a b => ClOp.pair a b ∈ phashOps t1 files) x k :=
    sameId_complete (phashOps t1 files) (fun a b hm => hm) wf_init
      (fun u v huv => by
        rcases huv with ⟨i, hu, _⟩
        simp [Clusterer.init] at hu)
      hsame1
  rcases hconn with rfl | hconn
  · exact hks'
  · have hconn2 : Relation.EqvGen
        (fun a b => ClOp.pair a b ∈ phashOps t2 files) x k :=
      Relation.EqvGen.mono (fun a b h => pair_mem_phashOps_mono h12 h) hconn
    rcases eqvGen_sameId (fun a b h => h) hconn2 with rfl | hsame2
    · exact hks'
    · exact sameId_mem_compile hw2 hsame2 hks' hs'

/-- witness for C9 at a concrete input: two files one bit apart,
thresholds 0 and 2 — the singleton cluster of value 0 at threshold 0 is
contained in a cluster of the threshold-2 run. -/
theorem phash_threshold_monotone_witness :
    ∃ s' ∈ (similar_phashes 2
        [⟨"a", [], "a", ".jpg", true, 0⟩, ⟨"b", [], "b", ".jpg", true, 1⟩]).compile,
      ({0} : Finset Nat) ⊆ s' :=
  (phash_threshold_monotone 0 2 (by decide)
    [⟨"a", [], "a", ".jpg", true, 0⟩, ⟨"b", [], "b", ".jpg", true, 1⟩]).2
    {0} (by decide)

/-! ### Claim C6: exact dedup and the keeper -/

theorem charListLe_cons (x y : Char) (xs ys : List Char) :
    charListLe (x :: xs) (y :: ys) =
      if x < y then true else if y < x then false else charListLe xs ys := rfl

theorem charListLe_cons_iff {x y : Char} {xs ys : List Char} :
    charListLe (x :: xs) (y :: ys) = true ↔
      x < y ∨ (x = y ∧ charListLe xs ys = true) := by
  rw [charListLe_cons]
  rcases lt_trichotomy x y with h | h | h
  · rw [if_pos h]
    simp [h]
  · subst h
    rw [if_neg (lt_irrefl x), if_neg (lt_irrefl x)]
    simp [lt_irrefl x]
  · rw [if_neg (asymm h), if_pos h]
    simp [asymm h, ne_of_gt h]

theorem charListLe_refl (a : List Char) : charListLe a a = true := by
  induction a with
  | nil => rfl
  | cons x xs ih => exact charListLe_cons_iff.mpr (Or.inr ⟨rfl, ih⟩)

theorem charListLe_trans {a b c : List Char} (h1 : charListLe a b = true)
    (h2 : charListLe b c = true) : charListLe a c = true := by
  induction a generalizing b c with
  | nil => rfl
  | cons x xs ih =>
    cases b with
    | nil => cases h1
    | cons y ys =>
      cases c with
      | nil => cases h2
      | cons z zs =>
        rcases charListLe_cons_iff.mp h1 with hxy | ⟨rfl, hr1⟩ <;>
          rcases charListLe_cons_iff.mp h2 with hyz | ⟨rfl, hr2⟩
        · exact charListLe_cons_iff.mpr (Or.inl (lt_trans hxy hyz))
        · exact charListLe_cons_iff.mpr (Or.inl hxy)
        · exact charListLe_cons_iff.mpr (Or.inl hyz)
        · exact charListLe_cons_iff.mpr (Or.inr ⟨rfl, ih hr1 hr2⟩)

theorem charListLe_total (a b : List Char) :
    charListLe a b = true ∨ charListLe b a = true := by
  induction a generalizing b with
  | nil => exact Or.inl rfl
  | cons x xs ih =>
    cases b with
    | nil => exact Or.inr rfl
    | cons y ys =>
      rcases lt_trichotomy x y with h | rfl | h
      · exact Or.inl (charListLe_cons_iff.mpr (Or.inl h))
      · rcases ih ys with h' | h'
        · exact Or.inl (charListLe_cons_iff.mpr (Or.inr ⟨rfl, h'⟩))
        · exact Or.inr (charListLe_cons_iff.mpr (Or.inr ⟨rfl, h'⟩))
      · exact Or.inr (charListLe_cons_iff.mpr (Or.inl h))

theorem charListLe_antisymm {a b : List Char} (h1 : charListLe a b = true)
    (h2 : charListLe b a = true) : a = b := by
  induction a generalizing b with
  | nil =>
    cases b with
    | nil => rfl
    | cons y ys => cases h2
  | cons x xs ih =>
    cases b with
    | nil => cases h1
    | cons y ys =>
      rcases charListLe_cons_iff.mp h1 with hxy | ⟨rfl, hr1⟩
      · rcases charListLe_cons_iff.mp h2 with hyx | ⟨heq, hr2⟩
        · exact absurd hyx (asymm hxy)
        · exact absurd hxy (heq ▸ lt_irrefl x)
      · rcases charListLe_cons_iff.mp h2 with hyx | ⟨heq, hr2⟩
        · exact absurd hyx (lt_irrefl x)
        · rw [ih hr1 hr2]

theorem pathLe_refl (f : FileRec) : pathLe f f = true := charListLe_refl _

theorem pathLe_trans {f g h : FileRec} (h1 : pathLe f g = true)
    (h2 : pathLe g h = true) : pathLe f h = true := charListLe_trans h1 h2

theorem pathLe_total (f g : FileRec) : pathLe f g = true ∨ pathLe g f = true :=
  charListLe_total _ _

theorem mem_insertByPath {f x : FileRec} {l : List FileRec} :
    x ∈ insertByPath f l ↔ x = f ∨ x ∈ l := by
  induction l with
  | nil => simp [insertByPath]
  | cons g gs ih =>
    unfold insertByPath
    by_cases h : pathLe f g = true
    · rw [if_pos h]
      simp [List.mem_cons]
    · rw [if_neg h]
      simp only [List.mem_cons, ih]
      tauto

theorem mem_sortByPath {x : FileRec} {l : List FileRec} :
    x ∈ sortByPath l ↔ x ∈ l := by
  induction l with
  | nil => simp [sortByPath]
  | cons f fs ih =>
    unfold sortByPath
    rw [mem_insertByPath, ih, List.mem_cons]

theorem length_insertByPath (f : FileRec) (l : List FileRec) :
    (insertByPath f l).length = l.length + 1 := by
  induction l with
  | nil => rfl
  | cons g gs ih =>
    unfold insertByPath
    by_cases h : pathLe f g <;> simp [h, ih]

theorem length_sortByPath (l : List FileRec) :
    (sortByPath l).length = l.length := by
  induction l with
  | nil => rfl
  | cons f fs ih =>
    unfold sortByPath
    rw [length_insertByPath, ih, List.length_cons]

/-- the head of the path sort is a path-least member. -/
theorem sortByPath_head_min {l : List FileRec} {k : FileRec}
    (h : (sortByPath l).head? = some k) :
    k ∈ l ∧ ∀ f ∈ l, pathLe k f = true := by
  induction l generalizing k with
  | nil => cases h
  | cons f fs ih =>
    unfold sortByPath at h
    cases hs : sortByPath fs with
    | nil =>
      rw [hs] at h
      have hk : k = f := by
        unfold insertByPath at h
        simpa using h.symm
      subst hk
      have hfs : fs = [] := by
        cases fs with
        | nil => rfl
        | cons g gs =>
          have : g ∈ sortByPath (g :: gs) := mem_sortByPath.mpr (List.mem_cons_self _ _)
          rw [hs] at this
          cases this
      subst hfs
      exact ⟨List.mem_cons_self _ _, by
        intro x hx
        rcases List.mem_cons.mp hx with rfl | hx'
        · exact pathLe_refl x
        · cases hx'⟩
    | cons g gs =>
      rw [hs] at h
      have hg := ih (k := g) (by rw [hs]; rfl)
      unfold insertByPath at h
      by_cases hfg : pathLe f g
      · rw [if_pos hfg] at h
        have hk : k = f := by simpa using h.symm
        subst hk
        refine ⟨List.mem_cons_self _ _, ?_⟩
        intro x hx
        rcases List.mem_cons.mp hx with rfl | hx'
        · exact pathLe_refl x
        · exact pathLe_trans hfg (hg.2 x hx')
      · rw [if_neg hfg] at h
        have hk : k = g := by simpa using h.symm
        subst hk
        refine ⟨List.mem_cons_of_mem _ hg.1, ?_⟩
        intro x hx
        rcases List.mem_cons.mp hx with rfl | hx'
        · rcases pathLe_total x k with h' | h'
          · exact absurd h' hfg
          · exact h'
        · exact hg.2 x hx'

/-- characterization of the hash buckets. -/
theorem mem_match_hashes {files : List FileRec} {b : List FileRec} :
    b ∈ match_hashes files ↔
      ∃ h, h ∈ pyDedup (files.map (·.hash)) ∧
        b = files.filter (fun f => f.hash = h) := by
  unfold match_hashes
  rw [List.mem_map]
  constructor
  · rintro ⟨h, hh, rfl⟩
    exact ⟨h, hh, rfl⟩
  · rintro ⟨h, hh, rfl⟩
    exact ⟨h, hh, rfl⟩

theorem bucket_mem_of_mem {files : List FileRec} {f : FileRec} (hf : f ∈ files) :
    files.filter (fun g => g.hash = f.hash) ∈ match_hashes files ∧
      f ∈ files.filter (fun g => g.hash = f.hash) := by
  refine ⟨mem_match_hashes.mpr ⟨f.hash,
    mem_pyDedup.mpr (List.mem_map.mpr ⟨f, hf, rfl⟩), rfl⟩, ?_⟩
  rw [List.mem_filter]
  exact ⟨hf, by simp⟩

theorem mem_dedup_hashes {files : List FileRec} {f : FileRec} :
    f ∈ dedup_hashes files ↔
      ∃ b ∈ match_hashes files, (sortByPath b).head? = some f := by
  unfold dedup_hashes
  rw [List.mem_toFinset, List.mem_filterMap]

/-- C6: every content-hash bucket with at least two members is reported as
an identical group whose first (retained) element is a path-least member;
`dedup_hashes` keeps exactly one path-least member per bucket — the keeper
— and keeps every unique file, and only keepers proceed. -/
theorem dedup_keeper_spec (files : List FileRec) :
    (∀ b ∈ match_hashes files, 2 ≤ b.length → sortByPath b ∈ identicals files) ∧
    (∀ g ∈ identicals files, ∃ k, g.head? = some k ∧ k ∈ g ∧
      (∀ f ∈ g, pathLe k f = true) ∧ 2 ≤ g.length) ∧
    (∀ f : FileRec, f ∈ dedup_hashes files ↔
      ∃ b ∈ match_hashes files, (sortByPath b).head? = some f) ∧
    (∀ f ∈ dedup_hashes files, f ∈ files ∧
      ∀ g ∈ files, g.hash = f.hash → pathLe f g = true) ∧
    (∀ f ∈ files, (∀ g ∈ files, g.hash = f.hash → g = f) →
      f ∈ dedup_hashes files) ∧
    (∀ b ∈ match_hashes files, ∃ k ∈ b, k ∈ dedup_hashes files ∧
      ∀ f ∈ b, f ∈ dedup_hashes files → f = k) := by
  have hbucket_eq : ∀ {b : List FileRec} {f : FileRec}, b ∈ match_hashes files →
      f ∈ b → b = files.filter (fun g => g.hash = f.hash) := by
    intro b f hb hf
    rcases mem_match_hashes.mp hb with ⟨h, hh, rfl⟩
    have : f.hash = h := by
      have := List.mem_filter.mp hf
      simpa using this.2
    rw [← this]
  refine ⟨?_, ?_, fun f => mem_dedup_hashes, ?_, ?_, ?_⟩
  · intro b hb hlen
    unfold identicals
    exact List.mem_filterMap.mpr ⟨b, hb, by rw [if_pos (by omega)]⟩
  · intro g hg
    unfold identicals at hg
    rcases List.mem_filterMap.mp hg with ⟨b, hb, he⟩
    by_cases hlen : 1 < b.length
    · rw [if_pos hlen] at he
      have hge : g = sortByPath b := (Option.some.inj he).symm
      subst hge
      cases hh : (sortByPath b).head? with
      | none =>
        exfalso
        cases hsb : sortByPath b with
        | nil =>
          have := length_sortByPath b
          rw [hsb] at this
          simp at this
          omega
        | cons x xs => rw [hsb] at hh; cases hh
      | some k =>
        have hmin := sortByPath_head_min hh
        exact ⟨k, rfl, mem_sortByPath.mpr hmin.1,
          fun f hf => hmin.2 f (mem_sortByPath.mp hf),
          by rw [length_sortByPath]; omega⟩
    · rw [if_neg hlen] at he
      cases he
  · intro f hf
    rcases mem_dedup_hashes.mp hf with ⟨b, hb, hhead⟩
    have hmin := sortByPath_head_min hhead
    rcases mem_match_hashes.mp hb with ⟨h, hh, rfl⟩
    have hfF := List.mem_filter.mp hmin.1
    have hfh : f.hash = h := by simpa using hfF.2
    refine ⟨hfF.1, ?_⟩
    intro g hg hgh
    exact hmin.2 g (List.mem_filter.mpr ⟨hg, by simp [hgh, hfh]⟩)
  · intro f hf hunique
    have hb := bucket_mem_of_mem hf
    refine mem_dedup_hashes.mpr ⟨_, hb.1, ?_⟩
    cases hh : (sortByPath (files.filter (fun g => g.hash = f.hash))).head? with
    | none =>
      exfalso
      cases hsb : sortByPath (files.filter (fun g => g.hash = f.hash)) with
      | nil =>
        have : f ∈ sortByPath (files.filter (fun g => g.hash = f.hash)) :=
          mem_sortByPath.mpr hb.2
        rw [hsb] at this
        cases this
      | cons x xs => rw [hsb] at hh; cases hh
    | some k =>
      have hmin := sortByPath_head_min hh
      have hkF := List.mem_filter.mp hmin.1
      have : k = f := hunique k hkF.1 (by simpa using hkF.2)
      rw [this]
  · intro b hb
    have hbne : ∃ f, f ∈ b := by
      rcases mem_match_hashes.mp hb with ⟨h, hh, rfl⟩
      rcases List.mem_map.mp (mem_pyDedup.mp hh) with ⟨f, hf, rfl⟩
      exact ⟨f, List.mem_filter.mpr ⟨hf, by simp⟩⟩
    rcases hbne with ⟨f0, hf0⟩
    cases hh : (sortByPath b).head? with
    | none =>
      exfalso
      cases hsb : sortByPath b with
      | nil =>
        have : f0 ∈ sortByPath b := mem_sortByPath.mpr hf0
        rw [hsb] at this
        cases this
      | cons x xs => rw [hsb] at hh; cases hh
    | some k =>
      have hmin := sortByPath_head_min hh
      refine ⟨k, hmin.1, mem_dedup_hashes.mpr ⟨b, hb, hh⟩, ?_⟩
      intro f hfb hfd
      rcases mem_dedup_hashes.mp hfd with ⟨b', hb', hhead'⟩
      have hmin' := sortByPath_head_min hhead'
      have h1 : b' = files.filter (fun g => g.hash = f.hash) :=
        hbucket_eq hb' hmin'.1
      have h2 : b = files.filter (fun g => g.hash = f.hash) := hbucket_eq hb hfb
      rw [h1, ← h2] at hhead'
      rw [hhead'] at hh
      exact Option.some.inj hh

/-- witness for C6 at a concrete input: two files sharing a hash (paths
`b` and `a`) and a unique file `c`; the keeper of the shared bucket is the
path-least file `a`, which is in `dedup_hashes` and below every
same-hash file. -/
theorem dedup_keeper_spec_witness :
    (⟨"a", "x".toList, "a", ".jpg", true, 0⟩ : FileRec) ∈
        [⟨"b", "x".toList, "b", ".jpg", true, 0⟩,
         ⟨"a", "x".toList, "a", ".jpg", true, 0⟩,
         ⟨"c", "y".toList, "c", ".jpg", true, 7⟩] ∧
      ∀ g ∈ [(⟨"b", "x".toList, "b", ".jpg", true, 0⟩ : FileRec),
             ⟨"a", "x".toList, "a", ".jpg", true, 0⟩,
             ⟨"c", "y".toList, "c", ".jpg", true, 7⟩],
        g.hash = (⟨"a", "x".toList, "a", ".jpg", true, 0⟩ : FileRec).hash →
          pathLe ⟨"a", "x".toList, "a", ".jpg", true, 0⟩ g = true :=
  (dedup_keeper_spec
    [⟨"b", "x".toList, "b", ".jpg", true, 0⟩,
     ⟨"a", "x".toList, "a", ".jpg", true, 0⟩,
     ⟨"c", "y".toList, "c", ".jpg", true, 7⟩]).2.2.2.1
    ⟨"a", "x".toList, "a", ".jpg", true, 0⟩ (by decide)

/-! ### Claim C7: automatic decision on equal-dimension pairs -/

theorem classifyStep_samesize_mono (dims : String → Nat × Nat)
    (fsize : String → Nat)
    (acc : Finset (String × String) × Finset (String × String) × List (List String))
    (sset : List String) :
    acc.1 ⊆ (classifyStep dims fsize acc sset).1 := by
  obtain ⟨ss, ds, os⟩ := acc
  rcases sset with _ | ⟨f1, _ | ⟨f2, _ | ⟨f3, rest⟩⟩⟩
  · exact Finset.Subset.refl _
  · exact Finset.Subset.refl _
  · unfold classifyStep
    dsimp only
    split_ifs
    · exact Finset.subset_insert _ _
    · exact Finset.subset_insert _ _
    · exact Finset.Subset.refl _
    · exact Finset.Subset.refl _
    · exact Finset.Subset.refl _
  · exact Finset.Subset.refl _

theorem classify_foldl_samesize_mono (dims : String → Nat × Nat)
    (fsize : String → Nat) (l : List (List String))
    (acc : Finset (String × String) × Finset (String × String) × List (List String)) :
    acc.1 ⊆ (l.foldl (classifyStep dims fsize) acc).1 := by
  induction l generalizing acc with
  | nil => exact Finset.Subset.refl _
  | cons s ss ih =>
    rw [List.foldl_cons]
    exact (classifyStep_samesize_mono dims fsize acc s).trans
      (ih (classifyStep dims fsize acc s))

theorem classify_pair_samesize_aux (dims : String → Nat × Nat)
    (fsize : String → Nat) {f1 f2 : String} (hdim : dims f1 = dims f2)
    (similars : List (List String)) :
    ∀ acc, [f1, f2] ∈ similars →
      (if fsize f1 < fsize f2 then (f1, f2) else (f2, f1))
        ∈ (similars.foldl (classifyStep dims fsize) acc).1 := by
  induction similars with
  | nil =>
    intro acc h
    cases h
  | cons s ss ih =>
    intro acc hmem'
    rw [List.foldl_cons]
    rcases List.mem_cons.mp hmem' with rfl | h'
    · refine Finset.mem_of_subset (classify_foldl_samesize_mono dims fsize ss _) ?_
      obtain ⟨a0, d0, o0⟩ := acc
      unfold classifyStep
      dsimp only
      rw [if_pos hdim]
      by_cases hlt : fsize f1 < fsize f2
      · rw [if_pos hlt, if_pos hlt]
        exact Finset.mem_insert_self _ _
      · rw [if_neg hlt, if_neg hlt]
        exact Finset.mem_insert_self _ _
    · exact ih (classifyStep dims fsize acc s) h'

theorem classify_pair_samesize (dims : String → Nat × Nat)
    (fsize : String → Nat) (similars : List (List String)) {f1 f2 : String}
    (hmem : [f1, f2] ∈ similars) (hdim : dims f1 = dims f2) :
    (if fsize f1 < fsize f2 then (f1, f2) else (f2, f1))
      ∈ (classify dims fsize similars).1 :=
  classify_pair_samesize_aux dims fsize hdim similars _ hmem

/-- C7: during triage, a similar group of exactly two files with equal
pixel dimensions is queued ordered (smaller byte size, larger byte size),
and the file removed on confirmation — the second component of the queued
pair — is the one with the larger byte size, the smaller being kept. -/
theorem samesize_triage_spec (dims : String → Nat × Nat)
    (fsize : String → Nat) (similars : List (List String)) (f1 f2 : String)
    (hmem : [f1, f2] ∈ similars) (hdim : dims f1 = dims f2)
    (hne : fsize f1 ≠ fsize f2) :
    ∃ p ∈ (classify dims fsize similars).1,
      (p = (f1, f2) ∨ p = (f2, f1)) ∧
      fsize (samesize_deleted p) = max (fsize f1) (fsize f2) ∧
      fsize p.1 = min (fsize f1) (fsize f2) := by
  have hmain := classify_pair_samesize dims fsize similars hmem hdim
  by_cases hlt : fsize f1 < fsize f2
  · rw [if_pos hlt] at hmain
    refine ⟨(f1, f2), hmain, Or.inl rfl, ?_, ?_⟩
    · show fsize f2 = _
      omega
    · show fsize f1 = _
      omega
  · rw [if_neg hlt] at hmain
    have hgt : fsize f2 < fsize f1 := by omega
    refine ⟨(f2, f1), hmain, Or.inr rfl, ?_, ?_⟩
    · show fsize f1 = _
      omega
    · show fsize f2 = _
      omega

/-- witness for C7 at the concrete input of the specification example: a
two-element group, both images 800 by 600, byte sizes 200000 and 350000 —
the queued pair is ordered (200000-byte file, 350000-byte file) and the
deleted file is the 350000-byte one. -/
theorem samesize_triage_spec_witness :
    ∃ p ∈ (classify (fun _ => (800, 600))
        (fun q => if q = "a.jpg" then 200000 else 350000) [["a.jpg", "b.jpg"]]).1,
      (p = ("a.jpg", "b.jpg") ∨ p = ("b.jpg", "a.jpg")) ∧
      (fun q => if q = "a.jpg" then 200000 else 350000) (samesize_deleted p) =
        max ((fun q => if q = "a.jpg" then 200000 else 350000) "a.jpg")
          ((fun q => if q = "a.jpg" then 200000 else 350000) "b.jpg") ∧
      (fun q => if q = "a.jpg" then 200000 else 350000) p.1 =
        min ((fun q => if q = "a.jpg" then 200000 else 350000) "a.jpg")
          ((fun q => if q = "a.jpg" then 200000 else 350000) "b.jpg") :=
  samesize_triage_spec (fun _ => (800, 600))
    (fun q => if q = "a.jpg" then 200000 else 350000) [["a.jpg", "b.jpg"]]
    "a.jpg" "b.jpg" (by decide) rfl (by decide)

/-! ### Claim C1: the cache lookup in `ncc_compare`

The stored-score path of `ncc_compare` is taken only when the stored score
is truthy.  A cached score of exactly `0.0` therefore falls through to the
external comparison, indistinguishable from an absent entry — the lookup
cannot represent a cached `0.0`. -/

/-- what does hold: a present, non-zero stored score is returned with no
external call. -/
theorem ncc_compare_hit (cache : Cache) (nccScore : FileRec → FileRec → ℚ)
    (file1 file2 : FileRec) (s : ℚ)
    (hs : get_from_cache cache (ncc_cache_key file1 file2) = some s)
    (hnz : s ≠ 0) :
    ncc_compare cache nccScore (file1, file2) = ((file1, file2, s), false) := by
  unfold ncc_compare
  dsimp only
  rw [hs]
  simp [floatTruthy, hnz]

/-- witness for the non-zero hit path at a concrete input. -/
theorem ncc_compare_hit_witness :
    ncc_compare (fun key => if key = "ab".toList then some (1/2 : ℚ) else none)
      (fun _ _ => 1)
      (⟨"a", "a".toList, "a", ".jpg", true, 0⟩, ⟨"b", "b".toList, "b", ".jpg", true, 0⟩)
      = ((⟨"a", "a".toList, "a", ".jpg", true, 0⟩, ⟨"b", "b".toList, "b", ".jpg", true, 0⟩,
          (1/2 : ℚ)), false) :=
  ncc_compare_hit _ _ _ _ (1/2) rfl (by norm_num)

/-- C1, at the failing input class: when the canonical key of the pair is
present in the cache with stored score `0.0`, `ncc_compare` does NOT
return the stored score: it takes the external thumbnail/correlation path
(flag `true`) and returns the freshly computed score — a stored `0.0` is
treated exactly like an absent entry. -/
theorem ncc_compare_zero_recomputes (cache : Cache)
    (nccScore : FileRec → FileRec → ℚ) (file1 file2 : FileRec)
    (h : get_from_cache cache (ncc_cache_key file1 file2) = some 0) :
    ncc_compare cache nccScore (file1, file2) =
      ((file1, file2, nccScore file1 file2), true) := by
  unfold ncc_compare
  dsimp only
  rw [h]
  simp [floatTruthy]

/-- witness for C1 at a concrete input: a cache holding exactly the pair's
key with stored score `0`, on which the external path runs. -/
theorem ncc_compare_zero_recomputes_witness :
    ncc_compare (fun key => if key = "ab".toList then some (0 : ℚ) else none)
      (fun _ _ => 1)
      (⟨"a", "a".toList, "a", ".jpg", true, 0⟩, ⟨"b", "b".toList, "b", ".jpg", true, 0⟩)
      = ((⟨"a", "a".toList, "a", ".jpg", true, 0⟩, ⟨"b", "b".toList, "b", ".jpg", true, 0⟩,
          (1 : ℚ)), true) :=
  ncc_compare_zero_recomputes _ (fun _ _ => 1) _ _ rfl

/-! ### Claim C2: a read failure aborts the extraction stage

`File.__init__` lets the exception from `compute_hash` propagate, and the
collection loop around `pool.imap_unordered(File, filepaths)` has no
handler, so one unreadable file aborts the whole stage instead of being
excluded. -/

/-- C2, at the failing input class: if some path's `compute_hash` raises,
the whole extraction stage returns that failure — no list of records for
the readable files is produced. -/
theorem File_init_error {fs : FsOracle} {p e : String}
    (herr : fs.compute_hash (fs.normpath p) = Except.error e) :
    File_init fs p = Except.error e := by
  unfold File_init
  simp only [herr]
  rfl

theorem File_init_ok {fs : FsOracle} {q : String} {h : List Char}
    (hq : fs.compute_hash (fs.normpath q) = Except.ok h) :
    ∃ rec, File_init fs q = Except.ok rec := by
  refine ⟨⟨fs.normpath q, h, (fs.splitName q).1, (fs.splitName q).2,
    decide ((fs.splitName q).2 ∈ [".jpg", ".png", ".webp"]),
    if (fs.splitName q).2 ∈ [".jpg", ".png", ".webp"]
    then fs.phash (fs.normpath q) else 0⟩, ?_⟩
  unfold File_init
  simp only [hq]
  rfl

theorem extract_files_aborts (fs : FsOracle) (p : String) (pre post : List String)
    (e : String) (herr : fs.compute_hash (fs.normpath p) = Except.error e)
    (hok : ∀ q ∈ pre, ∃ h, fs.compute_hash (fs.normpath q) = Except.ok h) :
    ∃ e', extract_files fs (pre ++ p :: post) = Except.error e' := by
  induction pre with
  | nil =>
    refine ⟨e, ?_⟩
    show (File_init fs p >>= _) = _
    rw [File_init_error herr]
    rfl
  | cons q pre ih =>
    rcases hok q (List.mem_cons_self _ _) with ⟨h, hq⟩
    rcases File_init_ok hq with ⟨rec, hrec⟩
    rcases ih (fun r hr => hok r (List.mem_cons_of_mem _ hr)) with ⟨e', he'⟩
    refine ⟨e', ?_⟩
    show (File_init fs q >>= _) = _
    rw [hrec]
    show (extract_files fs (pre ++ p :: post) >>= _) = _
    rw [he']
    rfl

/-- witness for C2 at a concrete input: a scan of `./good` (readable) and
`./bad` (permission error) aborts with the error instead of producing the
record of `./good`. -/
theorem extract_files_aborts_witness :
    ∃ e', extract_files
      ⟨id,
       fun p => if p = "./bad" then Except.error "PermissionError"
                else Except.ok ("h".toList),
       fun s => (s, ".jpg"), fun _ => 0⟩
      (["./good"] ++ "./bad" :: []) = Except.error e' :=
  extract_files_aborts _ "./bad" ["./good"] [] "PermissionError" rfl
    (fun q hq => ⟨"h".toList, by
      rcases List.mem_singleton.mp hq with rfl
      rfl⟩)

/-! ### Claim C8: persistence is not write-temp-then-rename

`store_cache` and `store_report` open the live target with mode `w`,
which truncates it on the spot, and then write into it.  A crash between
the truncation and the completed write leaves the file empty or partial:
the previous on-disk state is destroyed before the new state exists. -/

/-- C8, at the failing input class: for both persistence routines there is
a crash point strictly before the last step after which the target file no
longer holds its previous contents. -/
theorem persistence_not_atomic (prev data : String) (st : FsState)
    (hC : st CACHE_FILE = some prev) (hR : st REPORT_FILE = some prev)
    (hne : prev ≠ "") :
    (∃ k < (store_cache_steps data).length,
      runFsSteps st ((store_cache_steps data).take k) CACHE_FILE
        ≠ st CACHE_FILE) ∧
    (∃ k < (store_report_steps data).length,
      runFsSteps st ((store_report_steps data).take k) REPORT_FILE
        ≠ st REPORT_FILE) := by
  constructor
  · refine ⟨1, by simp [store_cache_steps], ?_⟩
    show applyFsStep st (FsStep.truncate CACHE_FILE) CACHE_FILE ≠ st CACHE_FILE
    rw [hC]
    show (if CACHE_FILE = CACHE_FILE then some "" else st CACHE_FILE) ≠ _
    rw [if_pos rfl]
    intro h
    exact hne (Option.some.inj h).symm
  · refine ⟨1, by simp [store_report_steps], ?_⟩
    show applyFsStep st (FsStep.truncate REPORT_FILE) REPORT_FILE ≠ st REPORT_FILE
    rw [hR]
    show (if REPORT_FILE = REPORT_FILE then some "" else st REPORT_FILE) ≠ _
    rw [if_pos rfl]
    intro h
    exact hne (Option.some.inj h).symm

/-- witness for C8 at a concrete input: both files previously hold `x`;
crashing right after the truncating `open` leaves them changed. -/
theorem persistence_not_atomic_witness :
    (∃ k < (store_cache_steps "new").length,
      runFsSteps (fun _ => some "x") ((store_cache_steps "new").take k) CACHE_FILE
        ≠ (fun _ => some "x") CACHE_FILE) ∧
    (∃ k < (store_report_steps "new").length,
      runFsSteps (fun _ => some "x") ((store_report_steps "new").take k) REPORT_FILE
        ≠ (fun _ => some "x") REPORT_FILE) :=
  persistence_not_atomic "x" "new" (fun _ => some "x") rfl rfl (by decide)

/-! ### Claim C10: the cache-key encoding round-trips -/

/-- C10: `ncc_cache_key` is symmetric in its two files, and for 32-character
digests `ncc_cache_dekey` recovers exactly the lexicographically sorted
pair of the two content hashes. -/
theorem ncc_cache_key_roundtrip (file1 file2 : FileRec)
    (h1 : file1.hash.length = 32) (h2 : file2.hash.length = 32) :
    ncc_cache_key file1 file2 = ncc_cache_key file2 file1 ∧
    charListLe (ncc_cache_dekey (ncc_cache_key file1 file2)).1
      (ncc_cache_dekey (ncc_cache_key file1 file2)).2 = true ∧
    (ncc_cache_dekey (ncc_cache_key file1 file2)
        = (file1.hash, file2.hash) ∨
     ncc_cache_dekey (ncc_cache_key file1 file2)
        = (file2.hash, file1.hash)) := by
  unfold ncc_cache_key ncc_cache_dekey
  by_cases hle : charListLe file1.hash file2.hash = true
  · rw [if_pos hle]
    have htake : (file1.hash ++ file2.hash).take 32 = file1.hash := by
      rw [← h1]
      exact List.take_left _ _
    have hdrop : (file1.hash ++ file2.hash).drop 32 = file2.hash := by
      rw [← h1]
      exact List.drop_left _ _
    refine ⟨?_, ?_, ?_⟩
    · by_cases hle2 : charListLe file2.hash file1.hash = true
      · rw [if_pos hle2, charListLe_antisymm hle hle2]
      · rw [if_neg hle2]
    · rw [htake, hdrop]
      exact hle
    · rw [htake, hdrop]
      exact Or.inl rfl
  · have hle2 : charListLe file2.hash file1.hash = true := by
      rcases charListLe_total file1.hash file2.hash with h | h
      · exact absurd h hle
      · exact h
    rw [if_neg hle]
    have htake : (file2.hash ++ file1.hash).take 32 = file2.hash := by
      rw [← h2]
      exact List.take_left _ _
    have hdrop : (file2.hash ++ file1.hash).drop 32 = file1.hash := by
      rw [← h2]
      exact List.drop_left _ _
    refine ⟨?_, ?_, ?_⟩
    · rw [if_pos hle2]
    · rw [htake, hdrop]
      exact hle2
    · rw [htake, hdrop]
      exact Or.inr rfl

/-- witness for C10 at two concrete 32-character digests. -/
theorem ncc_cache_key_roundtrip_witness :
    ncc_cache_key
        ⟨"a", "0123456789abcdef0123456789abcdef".toList, "a", ".jpg", true, 0⟩
        ⟨"b", "fedcba9876543210fedcba9876543210".toList, "b", ".jpg", true, 0⟩
      = ncc_cache_key
        ⟨"b", "fedcba9876543210fedcba9876543210".toList, "b", ".jpg", true, 0⟩
        ⟨"a", "0123456789abcdef0123456789abcdef".toList, "a", ".jpg", true, 0⟩ ∧
    charListLe
      (ncc_cache_dekey (ncc_cache_key
        ⟨"a", "0123456789abcdef0123456789abcdef".toList, "a", ".jpg", true, 0⟩
        ⟨"b", "fedcba9876543210fedcba9876543210".toList, "b", ".jpg", true, 0⟩)).1
      (ncc_cache_dekey (ncc_cache_key
        ⟨"a", "0123456789abcdef0123456789abcdef".toList, "a", ".jpg", true, 0⟩
        ⟨"b", "fedcba9876543210fedcba9876543210".toList, "b", ".jpg", true, 0⟩)).2
      = true ∧
    (ncc_cache_dekey (ncc_cache_key
        ⟨"a", "0123456789abcdef0123456789abcdef".toList, "a", ".jpg", true, 0⟩
        ⟨"b", "fedcba9876543210fedcba9876543210".toList, "b", ".jpg", true, 0⟩)
      = ("0123456789abcdef0123456789abcdef".toList,
         "fedcba9876543210fedcba9876543210".toList) ∨
     ncc_cache_dekey (ncc_cache_key
        ⟨"a", "0123456789abcdef0123456789abcdef".toList, "a", ".jpg", true, 0⟩
        ⟨"b", "fedcba9876543210fedcba9876543210".toList, "b", ".jpg", true, 0⟩)
      = ("fedcba9876543210fedcba9876543210".toList,
         "0123456789abcdef0123456789abcdef".toList)) :=
  ncc_cache_key_roundtrip
    ⟨"a", "0123456789abcdef0123456789abcdef".toList, "a", ".jpg", true, 0⟩
    ⟨"b", "fedcba9876543210fedcba9876543210".toList, "b", ".jpg", true, 0⟩
    (by decide) (by decide)

end DupFinder
